import Mathlib

/-!
Shallow embedding of the diff alignment and highlighting engine of
`src/textComparatorPanel.ts` (the Comperator VS Code extension).

JavaScript strings are modelled as lists of characters (`Str`).  The two
external diff primitives (`diff.diffLines`, `diff.diffWordsWithSpace`) are
modelled as function parameters together with the contract stated for them
(each element is added, removed or neither; non-added values concatenate to
the first argument and non-removed values to the second).  HTML markup is
presentational glue: a `<div class="line ...">` becomes an `AlignedRow`, the
`<span class="word-diff ...">` fragments become `WordSpan`s, and
`_escapeHtml` (an injective encoding applied uniformly to every emitted text)
is dropped, so span texts are the raw strings.
-/

namespace Comperator

/-- JavaScript strings, modelled as lists of characters. -/
abbrev Str := List Char

/-! ## Preprocessor — `_getHtmlForWebview`, lines 166–179 -/

/-- The character class of the JavaScript regular expression `\s`
(whitespace, including newlines): tab, line feed, vertical tab, form feed,
carriage return, space, no-break space, ogham space mark, the en-quad …
hair-space block, line separator, paragraph separator, narrow no-break
space, medium mathematical space, ideographic space and the byte order
mark. -/
def isJsWs (c : Char) : Bool :=
  let n := c.toNat
  n == 9 || n == 10 || n == 11 || n == 12 || n == 13 || n == 32 ||
  n == 160 || n == 5760 || (decide (8192 ≤ n) && decide (n ≤ 8202)) ||
  n == 8232 || n == 8233 || n == 8239 || n == 8287 || n == 12288 ||
  n == 65279

/-- `text.replace(/\s+/g, " ")`: every maximal run of `\s` characters is
replaced by a single ASCII space (lines 168–169). -/
def collapseWsList : List Char → List Char
  | [] => []
  | c :: cs =>
    if isJsWs c then ' ' :: collapseWsList (cs.dropWhile isJsWs)
    else c :: collapseWsList cs
termination_by l => l.length
decreasing_by
  · exact Nat.lt_succ_of_le (List.dropWhile_sublist isJsWs).length_le
  · exact Nat.lt_succ_self cs.length

set_option maxHeartbeats 1600000 in
theorem collapseWsList_nil : collapseWsList [] = [] := collapseWsList.eq_1

theorem collapseWsList_cons (c : Char) (cs : List Char) :
    collapseWsList (c :: cs) =
      if isJsWs c = true then ' ' :: collapseWsList (cs.dropWhile isJsWs)
      else c :: collapseWsList cs := collapseWsList.eq_2 c cs

/-- `text.toLowerCase()`, modelled characterwise by `Char.toLower`
(basic-latin case folding). -/
def toLowerCase (s : Str) : Str := s.map Char.toLower

/-- The two configuration flags the core consumes (lines 157–158). -/
structure Options where
  ignoreWhitespace : Bool
  ignoreCase : Bool
deriving DecidableEq

/-- The normalization applied to each file before the line diff, with the
exact branch structure of lines 166–179: if `ignoreWhitespace`, collapse
whitespace runs first, then lower-case if `ignoreCase`; otherwise only
lower-case if `ignoreCase`. -/
def normalize (opts : Options) (s : Str) : Str :=
  if opts.ignoreWhitespace then
    let n := collapseWsList s
    if opts.ignoreCase then toLowerCase n else n
  else
    if opts.ignoreCase then toLowerCase s else s

/-! ## Line splitting — `value.split("\n")` plus the trailing-empty pop -/

/-- `value.split("\n")`: the (always nonempty) list of newline-separated
segments. -/
def splitLines : Str → List Str
  | [] => [[]]
  | c :: cs =>
    if c = '\n' then [] :: splitLines cs
    else
      match splitLines cs with
      | [] => [[c]]
      | l :: ls => (c :: l) :: ls

/-- `if (lines[lines.length - 1] === "") lines.pop()` — drop one trailing
empty segment (lines 231–236, 269–271, 289–291, 310–312). -/
def dropTrailingEmptyLine (ls : List Str) : List Str :=
  if ls.getLast? = some [] then ls.dropLast else ls

/-- The lines an op's value is rendered as: split on newline, then drop a
single trailing empty line. -/
def splitToLines (v : Str) : List Str :=
  dropTrailingEmptyLine (splitLines v)

/-- Join a list of lines with newline separators (the inverse direction of
`splitLines`; used to state reconstruction properties). -/
def joinNL : List Str → Str
  | [] => []
  | [l] => l
  | l :: l2 :: ls => l ++ '\n' :: joinNL (l2 :: ls)

/-- Remove a single trailing newline character if present. -/
def dropTrailingNl (s : Str) : Str :=
  if s.getLast? = some '\n' then s.dropLast else s

/-! ## Edit ops and the external diff primitives -/

/-- One element of the edit script returned by the external diff primitives
(`diff.diffLines`, `diff.diffWordsWithSpace`): a text value with `added` /
`removed` flags (both false means unchanged). -/
structure EditOp where
  value : Str
  added : Bool := false
  removed : Bool := false
deriving DecidableEq

/-- The contract of the external diff primitives (spec §6): each element is
added, removed or neither; the non-added values concatenate to the first
input and the non-removed values to the second. -/
def DiffContract (d : List EditOp) (a b : Str) : Prop :=
  (∀ e ∈ d, ¬(e.added = true ∧ e.removed = true)) ∧
  ((d.filter fun e => !e.added).map EditOp.value).flatten = a ∧
  ((d.filter fun e => !e.removed).map EditOp.value).flatten = b

instance (d : List EditOp) (a b : Str) : Decidable (DiffContract d a b) := by
  unfold DiffContract
  infer_instance

/-- The type of the external line-level and word-level diff primitives. -/
abbrev DiffFn := Str → Str → List EditOp

/-! ## Modification detection — `findModifiedBlocks`, lines 187–216 -/

/-- The output of reclassification: either an original edit op, or a
modified block `{modified: true, oldValue, newValue}` pairing a removed op
with the immediately following added op. -/
inductive ProcessedOp where
  | mod (oldValue newValue : Str)
  | plain (op : EditOp)
deriving DecidableEq

/-- The body of the `findModifiedBlocks` loop from position `i` on: if
`lineDiffResult[i].removed` and `i + 1 < lineDiffResult.length` and
`lineDiffResult[i + 1].added`, push a modified block and skip the next
item, else push the current item unchanged. -/
def findModifiedBlocksFrom (ops : List EditOp) (i : Nat) : List ProcessedOp :=
  match _hc : ops[i]? with
  | none => []
  | some current =>
    match ops[i + 1]? with
    | some next =>
      if current.removed && next.added then
        .mod current.value next.value :: findModifiedBlocksFrom ops (i + 2)
      else
        .plain current :: findModifiedBlocksFrom ops (i + 1)
    | none => .plain current :: findModifiedBlocksFrom ops (i + 1)
termination_by ops.length - i
decreasing_by
  all_goals
    have hi : i < ops.length := by
      by_contra hlt
      rw [List.getElem?_eq_none (Nat.le_of_not_lt hlt)] at _hc
      exact Option.noConfusion _hc
    omega

/-- `findModifiedBlocks` (lines 187–216): single greedy left-to-right pass
starting at index 0. -/
def findModifiedBlocks (ops : List EditOp) : List ProcessedOp :=
  findModifiedBlocksFrom ops 0

/-! ## Word-level highlighting — `_processLineWithWordDiff`, lines 653–695 -/

/-- A highlighted fragment of a rendered line: plain escaped text
(`unchanged`), a `<span class="word-diff word-added">` fragment, or a
`<span class="word-diff word-removed">` fragment. -/
inductive WordSpan where
  | unchanged (text : Str)
  | addedWord (text : Str)
  | removedWord (text : Str)
deriving DecidableEq

/-- The text carried by a span. -/
def WordSpan.text : WordSpan → Str
  | .unchanged t => t
  | .addedWord t => t
  | .removedWord t => t

/-- The span emitted for one word-diff part (the body of the `forEach` in
lines 673–692): added parts are kept only in the file-2 view, removed
parts only in the file-1 view, unchanged parts always; other parts are
skipped. -/
def spanOfPart (isFile1 isFile2 : Bool) (part : EditOp) : Option WordSpan :=
  if part.added && isFile2 then some (.addedWord part.value)
  else if part.removed && isFile1 then some (.removedWord part.value)
  else if !part.added && !part.removed then some (.unchanged part.value)
  else none

/-- `_processLineWithWordDiff(line1, line2, isFile1, isFile2)` (lines
653–695), with the word-diff primitive `wd` as a parameter: if either line
is empty the other line is returned as plain text and no word diff is
computed; otherwise the word-diff parts are filtered by `spanOfPart`. -/
def processLineWithWordDiff (wd : DiffFn) (line1 line2 : Str)
    (isFile1 isFile2 : Bool) : List WordSpan :=
  if line1 = [] then [.unchanged line2]
  else if line2 = [] then [.unchanged line1]
  else (wd line1 line2).filterMap (spanOfPart isFile1 isFile2)

/-! ## Row emission — the `processedDiff.forEach` loop, lines 224–330 -/

/-- Line classification of a content row (the CSS class of the `div`). -/
inductive Classification where
  | unchanged
  | added
  | removed
  | modified
deriving DecidableEq

/-- One rendered row of one column: either an `empty-line` placeholder
`div`, or a content `div` with a 1-based line number, a classification,
and the word spans of its `line-content`. -/
inductive AlignedRow where
  | placeholder
  | content (lineNumber : Nat) (cls : Classification) (spans : List WordSpan)
deriving DecidableEq

/-- Rows of a modified block (lines 239–264): line `i` of the old side is
paired with line `i` of the new side, the missing side defaulting to the
empty string; each iteration appends one `modified` content row to each
column and increments both line counters. -/
def emitModRows (wd : DiffFn) :
    List Str → List Str → Nat → Nat → List AlignedRow × List AlignedRow
  | [], [], _, _ => ([], [])
  | o :: os, ns, n1, n2 =>
    (.content n1 .modified (processLineWithWordDiff wd o (ns.headD []) true false) ::
       (emitModRows wd os ns.tail (n1 + 1) (n2 + 1)).1,
     .content n2 .modified (processLineWithWordDiff wd o (ns.headD []) false true) ::
       (emitModRows wd os ns.tail (n1 + 1) (n2 + 1)).2)
  | [], nl :: ns, n1, n2 =>
    (.content n1 .modified (processLineWithWordDiff wd [] nl true false) ::
       (emitModRows wd [] ns (n1 + 1) (n2 + 1)).1,
     .content n2 .modified (processLineWithWordDiff wd [] nl false true) ::
       (emitModRows wd [] ns (n1 + 1) (n2 + 1)).2)
termination_by os ns => os.length + ns.length
decreasing_by
  · have : ns.tail.length ≤ ns.length := (List.tail_sublist ns).length_le
    simp only [List.length_cons]
    omega
  · simp only [List.length_cons]
    omega

/-- Rows of a pure added op (lines 265–285): per line, a placeholder on the
left and an `added` content row on the right, incrementing the right
counter. -/
def emitAddedRows (wd : DiffFn) :
    List Str → Nat → List AlignedRow × List AlignedRow
  | [], _ => ([], [])
  | l :: ls, n2 =>
    (.placeholder :: (emitAddedRows wd ls (n2 + 1)).1,
     .content n2 .added (processLineWithWordDiff wd [] l false true) ::
       (emitAddedRows wd ls (n2 + 1)).2)

/-- Rows of a pure removed op (lines 286–306): per line, a `removed`
content row on the left (word spans from the degenerate empty-`line2`
call) and a placeholder on the right, incrementing the left counter. -/
def emitRemovedRows (wd : DiffFn) :
    List Str → Nat → List AlignedRow × List AlignedRow
  | [], _ => ([], [])
  | l :: ls, n1 =>
    (.content n1 .removed (processLineWithWordDiff wd l [] true false) ::
       (emitRemovedRows wd ls (n1 + 1)).1,
     .placeholder :: (emitRemovedRows wd ls (n1 + 1)).2)

/-- Rows of an unchanged op (lines 307–329): per line, an `unchanged`
content row on each side whose content is the plain escaped line,
incrementing both counters. -/
def emitUnchangedRows :
    List Str → Nat → Nat → List AlignedRow × List AlignedRow
  | [], _, _ => ([], [])
  | l :: ls, n1, n2 =>
    (.content n1 .unchanged [.unchanged l] :: (emitUnchangedRows ls (n1 + 1) (n2 + 1)).1,
     .content n2 .unchanged [.unchanged l] :: (emitUnchangedRows ls (n1 + 1) (n2 + 1)).2)

/-- The `processedDiff.forEach` loop (lines 224–330): mutable accumulation
into `file1Html` / `file2Html` and the counters `lineNumber1` /
`lineNumber2` is modelled by threading the counters and appending the rows
each op emits. -/
def emitOps (wd : DiffFn) :
    List ProcessedOp → Nat → Nat → List AlignedRow × List AlignedRow
  | [], _, _ => ([], [])
  | .mod ov nv :: ps, n1, n2 =>
    ((emitModRows wd (splitToLines ov) (splitToLines nv) n1 n2).1 ++
       (emitOps wd ps (n1 + max (splitToLines ov).length (splitToLines nv).length)
         (n2 + max (splitToLines ov).length (splitToLines nv).length)).1,
     (emitModRows wd (splitToLines ov) (splitToLines nv) n1 n2).2 ++
       (emitOps wd ps (n1 + max (splitToLines ov).length (splitToLines nv).length)
         (n2 + max (splitToLines ov).length (splitToLines nv).length)).2)
  | .plain e :: ps, n1, n2 =>
    if e.added then
      ((emitAddedRows wd (splitToLines e.value) n2).1 ++
         (emitOps wd ps n1 (n2 + (splitToLines e.value).length)).1,
       (emitAddedRows wd (splitToLines e.value) n2).2 ++
         (emitOps wd ps n1 (n2 + (splitToLines e.value).length)).2)
    else if e.removed then
      ((emitRemovedRows wd (splitToLines e.value) n1).1 ++
         (emitOps wd ps (n1 + (splitToLines e.value).length) n2).1,
       (emitRemovedRows wd (splitToLines e.value) n1).2 ++
         (emitOps wd ps (n1 + (splitToLines e.value).length) n2).2)
    else
      ((emitUnchangedRows (splitToLines e.value) n1 n2).1 ++
         (emitOps wd ps (n1 + (splitToLines e.value).length)
           (n2 + (splitToLines e.value).length)).1,
       (emitUnchangedRows (splitToLines e.value) n1 n2).2 ++
         (emitOps wd ps (n1 + (splitToLines e.value).length)
           (n2 + (splitToLines e.value).length)).2)

/-- The full alignment engine over a raw edit script: reclassify, then emit
rows with both line counters starting at 1. -/
def alignRows (wd : DiffFn) (ops : List EditOp) :
    List AlignedRow × List AlignedRow :=
  emitOps wd (findModifiedBlocks ops) 1 1

/-- End-to-end comparison (lines 166–330): normalize both documents, run
the external line diff `ld`, and align. -/
def compareDocs (ld wd : DiffFn) (opts : Options) (doc1 doc2 : Str) :
    List AlignedRow × List AlignedRow :=
  alignRows wd (ld (normalize opts doc1) (normalize opts doc2))

/-! ## Observations used by the stated properties -/

/-- The text of a rendered line: concatenation of its span texts. -/
def spansText (spans : List WordSpan) : Str :=
  (spans.map WordSpan.text).flatten

/-- The texts of the content rows of a column, in order, placeholders
skipped. -/
def contentTexts : List AlignedRow → List Str
  | [] => []
  | .placeholder :: rs => contentTexts rs
  | .content _ _ spans :: rs => spansText spans :: contentTexts rs

/-- Is a row a placeholder? -/
def AlignedRow.isPlaceholder : AlignedRow → Bool
  | .placeholder => true
  | .content _ _ _ => false

/-- The rendered text of a row (placeholders carry no text). -/
def AlignedRow.text : AlignedRow → Str
  | .placeholder => []
  | .content _ _ spans => spansText spans

/-! ## Predicates used to state the reconstruction property -/

/-- The word-diff primitive satisfies its §6 contract on every pair of
nonempty lines (the only pairs the engine hands it). -/
def WordContract (wd : DiffFn) : Prop :=
  ∀ a b : Str, a ≠ [] → b ≠ [] → DiffContract (wd a b) a b

/-- Every value except possibly the last is empty or newline-terminated —
the shape `diff.diffLines` actually produces, on which splitting per op
loses no separator. -/
def NlSeparated : List Str → Prop
  | [] => True
  | v :: rest =>
    (rest = [] ∨ v = [] ∨ v.getLast? = some '\n') ∧ NlSeparated rest

/-- Two line lists of a modified block are balanced: equal length and
empty lines only at matching indices. -/
def BalancedLines (old new : List Str) : Prop :=
  old.length = new.length ∧
  ∀ i : Nat, i < old.length → (old.getD i [] = [] ↔ new.getD i [] = [])

/-- Every adjacent removed/added pair of the script splits into balanced
line lists. -/
def AdjacentBalanced : List EditOp → Prop
  | [] => True
  | [_] => True
  | x :: y :: rest =>
    (x.removed = true → y.added = true →
      BalancedLines (splitToLines x.value) (splitToLines y.value)) ∧
    AdjacentBalanced (y :: rest)

/-- The lines a processed op contributes to the left column's content
rows. -/
def leftLinesOf : ProcessedOp → List Str
  | .mod ov _ => splitToLines ov
  | .plain e => if e.added then [] else splitToLines e.value

/-- The lines a processed op contributes to the right column's content
rows. -/
def rightLinesOf : ProcessedOp → List Str
  | .mod _ nv => splitToLines nv
  | .plain e =>
    if e.added then splitToLines e.value
    else if e.removed then [] else splitToLines e.value

/-! ## Lemmas on line splitting and joining -/

theorem splitLines_ne_nil (v : Str) : splitLines v ≠ [] := by
  match v with
  | [] => simp [splitLines]
  | c :: cs =>
    rw [splitLines]
    split
    · simp
    · match h : splitLines cs with
      | [] => simp
      | l :: ls => simp

theorem joinNL_cons_cons (l : Str) (x : Str) (xs : List Str) :
    joinNL (l :: x :: xs) = l ++ '\n' :: joinNL (x :: xs) := rfl

theorem joinNL_cons_of_head (c : Char) (l : Str) (ls : List Str) :
    joinNL ((c :: l) :: ls) = c :: joinNL (l :: ls) := by
  match ls with
  | [] => rfl
  | x :: xs => simp [joinNL_cons_cons]

theorem joinNL_splitLines (v : Str) : joinNL (splitLines v) = v := by
  match v with
  | [] => rfl
  | c :: cs =>
    rw [splitLines]
    split
    · rename_i hc
      subst hc
      have hne := splitLines_ne_nil cs
      match h : splitLines cs with
      | [] => exact absurd h hne
      | l :: ls =>
        rw [joinNL_cons_cons]
        have := joinNL_splitLines cs
        rw [h] at this
        simp [this]
    · have hne := splitLines_ne_nil cs
      match h : splitLines cs with
      | [] => exact absurd h hne
      | l :: ls =>
        rw [joinNL_cons_of_head]
        have := joinNL_splitLines cs
        rw [h] at this
        rw [this]

theorem splitLines_append_newline (u : Str) :
    splitLines (u ++ ['\n']) = splitLines u ++ [[]] := by
  match u with
  | [] => rfl
  | c :: cs =>
    by_cases hc : c = '\n'
    · subst hc
      show splitLines ('\n' :: (cs ++ ['\n'])) = _
      rw [splitLines, if_pos rfl, splitLines, if_pos rfl]
      rw [splitLines_append_newline cs]
      rfl
    · show splitLines (c :: (cs ++ ['\n'])) = _
      rw [splitLines, if_neg hc, splitLines, if_neg hc]
      rw [splitLines_append_newline cs]
      have hne := splitLines_ne_nil cs
      match h : splitLines cs with
      | [] => exact absurd h hne
      | l :: ls => simp

theorem splitToLines_append_newline (u : Str) :
    splitToLines (u ++ ['\n']) = splitLines u := by
  rw [splitToLines, splitLines_append_newline, dropTrailingEmptyLine]
  rw [if_pos (by simp), List.dropLast_concat]

theorem getLast?_splitLines_ne_empty (v : Str) (hv : v ≠ [])
    (hnl : v.getLast? ≠ some '\n') : (splitLines v).getLast? ≠ some [] := by
  match v with
  | [c] =>
    rw [splitLines]
    have hc : c ≠ '\n' := by
      intro h; exact hnl (by simp [h])
    rw [if_neg hc]
    simp [splitLines]
  | c :: d :: cs =>
    have htail : (d :: cs).getLast? ≠ some '\n' := by
      rwa [List.getLast?_cons_cons] at hnl
    have ih := getLast?_splitLines_ne_empty (d :: cs) (by simp) htail
    rw [splitLines]
    split
    · have hne := splitLines_ne_nil (d :: cs)
      match h : splitLines (d :: cs) with
      | [] => exact absurd h hne
      | l :: ls =>
        rw [h] at ih
        rwa [List.getLast?_cons_cons]
    · have hne := splitLines_ne_nil (d :: cs)
      match h : splitLines (d :: cs) with
      | [] => exact absurd h hne
      | [l] =>
        rw [h] at ih
        simp only [List.getLast?_singleton, ne_eq, Option.some.injEq] at ih ⊢
        simp [ih]
      | l :: l2 :: ls =>
        rw [h] at ih
        rw [List.getLast?_cons_cons] at ih ⊢
        exact ih

theorem splitToLines_of_not_newline (v : Str) (hv : v ≠ [])
    (hnl : v.getLast? ≠ some '\n') : splitToLines v = splitLines v := by
  rw [splitToLines, dropTrailingEmptyLine,
    if_neg (getLast?_splitLines_ne_empty v hv hnl)]

theorem splitToLines_nil : splitToLines [] = [] := rfl

theorem joinNL_splitToLines (v : Str) :
    joinNL (splitToLines v) = dropTrailingNl v := by
  by_cases hv : v = []
  · subst hv; rfl
  · by_cases hnl : v.getLast? = some '\n'
    · obtain ⟨u, rfl⟩ : ∃ u, v = u ++ ['\n'] := by
        refine ⟨v.dropLast, ?_⟩
        have := List.dropLast_append_getLast? '\n' hnl
        simp [this]
      rw [splitToLines_append_newline, joinNL_splitLines, dropTrailingNl,
        if_pos (by simp), List.dropLast_concat]
    · rw [splitToLines_of_not_newline v hv hnl, joinNL_splitLines,
        dropTrailingNl, if_neg hnl]

theorem splitToLines_eq_nil_iff (v : Str) : splitToLines v = [] ↔ v = [] := by
  constructor
  · intro h
    by_contra hv
    by_cases hnl : v.getLast? = some '\n'
    · obtain ⟨u, rfl⟩ : ∃ u, v = u ++ ['\n'] := by
        refine ⟨v.dropLast, ?_⟩
        have := List.dropLast_append_getLast? '\n' hnl
        simp [this]
      rw [splitToLines_append_newline] at h
      exact splitLines_ne_nil u h
    · rw [splitToLines_of_not_newline v hv hnl] at h
      exact splitLines_ne_nil v h
  · intro h; subst h; rfl

theorem joinNL_append (A B : List Str) (hA : A ≠ []) (hB : B ≠ []) :
    joinNL (A ++ B) = joinNL A ++ '\n' :: joinNL B := by
  match A with
  | [a] =>
    match B with
    | b :: bs => simp [joinNL, joinNL_cons_cons]
  | a :: a2 :: A' =>
    have ih := joinNL_append (a2 :: A') B (by simp) hB
    simp only [List.cons_append] at ih ⊢
    rw [joinNL_cons_cons a a2 (A' ++ B), joinNL_cons_cons a a2 A', ih]
    simp

theorem dropTrailingNl_append (x y : Str) (hy : y ≠ []) :
    dropTrailingNl (x ++ y) = x ++ dropTrailingNl y := by
  rw [dropTrailingNl, dropTrailingNl, List.getLast?_append_of_ne_nil _ hy]
  split
  · rw [List.dropLast_append_of_ne_nil _ hy]
  · rfl

/-! ## Lemmas on the preprocessor -/

theorem isJsWs_eq_true_iff (c : Char) :
    isJsWs c = true ↔
      (c.toNat = 9 ∨ c.toNat = 10 ∨ c.toNat = 11 ∨ c.toNat = 12 ∨
       c.toNat = 13 ∨ c.toNat = 32 ∨ c.toNat = 160 ∨ c.toNat = 5760 ∨
       (8192 ≤ c.toNat ∧ c.toNat ≤ 8202) ∨ c.toNat = 8232 ∨
       c.toNat = 8233 ∨ c.toNat = 8239 ∨ c.toNat = 8287 ∨
       c.toNat = 12288 ∨ c.toNat = 65279) := by
  simp only [isJsWs, Bool.or_eq_true, Bool.and_eq_true, beq_iff_eq,
    decide_eq_true_eq]
  omega

theorem toNat_ofNat_of_lt {n : Nat} (h : n < 55296) :
    (Char.ofNat n).toNat = n := by
  have hv : n.isValidChar := Or.inl h
  rw [Char.ofNat, dif_pos hv]
  rfl

theorem toLower_def (c : Char) :
    c.toLower =
      if 65 ≤ c.toNat ∧ c.toNat ≤ 90 then Char.ofNat (c.toNat + 32)
      else c := rfl

theorem toNat_toLower (c : Char) :
    c.toLower.toNat =
      if 65 ≤ c.toNat ∧ c.toNat ≤ 90 then c.toNat + 32 else c.toNat := by
  rw [toLower_def]
  split
  · rename_i h
    exact toNat_ofNat_of_lt (by omega)
  · rfl

theorem toLower_toLower (c : Char) : c.toLower.toLower = c.toLower := by
  by_cases h : 65 ≤ c.toNat ∧ c.toNat ≤ 90
  · have h1 : c.toLower.toNat = c.toNat + 32 := by
      rw [toNat_toLower, if_pos h]
    rw [toLower_def c.toLower, if_neg (by omega)]
  · have h1 : c.toLower = c := by rw [toLower_def, if_neg h]
    rw [h1, h1]

theorem isJsWs_toLower (c : Char) : isJsWs c.toLower = isJsWs c := by
  by_cases h : 65 ≤ c.toNat ∧ c.toNat ≤ 90
  · have h1 : c.toLower.toNat = c.toNat + 32 := by
      rw [toNat_toLower, if_pos h]
    have h2 : isJsWs c.toLower = false := by
      rw [← Bool.not_eq_true, isJsWs_eq_true_iff]
      omega
    have h3 : isJsWs c = false := by
      rw [← Bool.not_eq_true, isJsWs_eq_true_iff]
      omega
    rw [h2, h3]
  · have h1 : c.toLower = c := by rw [toLower_def, if_neg h]
    rw [h1]

theorem toLower_space : Char.toLower ' ' = ' ' := rfl

theorem toLowerCase_toLowerCase (s : Str) :
    toLowerCase (toLowerCase s) = toLowerCase s := by
  simp only [toLowerCase, List.map_map]
  exact List.map_congr_left fun c _ => toLower_toLower c

theorem dropWhile_isJsWs_toLowerCase (s : Str) :
    (toLowerCase s).dropWhile isJsWs = toLowerCase (s.dropWhile isJsWs) := by
  rw [toLowerCase, List.dropWhile_map]
  have : (isJsWs ∘ Char.toLower) = isJsWs := funext fun c => isJsWs_toLower c
  rw [this, toLowerCase]

theorem collapseWs_toLowerCase (s : Str) :
    collapseWsList (toLowerCase s) = toLowerCase (collapseWsList s) := by
  match s with
  | [] => simp [toLowerCase, collapseWsList_nil]
  | c :: cs =>
    rw [show toLowerCase (c :: cs) = c.toLower :: toLowerCase cs from rfl]
    by_cases h : isJsWs c = true
    · rw [collapseWsList_cons, if_pos (by rw [isJsWs_toLower]; exact h),
        collapseWsList_cons, if_pos h]
      rw [dropWhile_isJsWs_toLowerCase,
        collapseWs_toLowerCase (cs.dropWhile isJsWs)]
      rw [show toLowerCase (' ' :: collapseWsList (cs.dropWhile isJsWs)) =
        Char.toLower ' ' :: toLowerCase (collapseWsList (cs.dropWhile isJsWs))
        from rfl, toLower_space]
    · rw [collapseWsList_cons, if_neg (by rw [isJsWs_toLower]; exact h),
        collapseWsList_cons, if_neg h]
      rw [collapseWs_toLowerCase cs]
      rfl
termination_by s.length
decreasing_by
  · exact Nat.lt_succ_of_le (List.dropWhile_sublist isJsWs).length_le
  · exact Nat.lt_succ_self cs.length

theorem head_collapseWs_not_ws (s : Str)
    (h : ∀ d, s.head? = some d → isJsWs d = false) :
    ∀ d, (collapseWsList s).head? = some d → isJsWs d = false := by
  match s with
  | [] => intro d hd; simp [collapseWsList_nil] at hd
  | c :: cs =>
    have hc : isJsWs c = false := h c rfl
    rw [collapseWsList_cons, if_neg (by simp [hc])]
    intro d hd
    simp only [List.head?_cons, Option.some.injEq] at hd
    rwa [← hd]

theorem dropWhile_collapseWs_of_head (s : Str)
    (h : ∀ d, s.head? = some d → isJsWs d = false) :
    (collapseWsList s).dropWhile isJsWs = collapseWsList s := by
  match hcl : collapseWsList s with
  | [] => rfl
  | d :: ds =>
    have hd : isJsWs d = false := by
      apply head_collapseWs_not_ws s h
      rw [hcl]; rfl
    rw [List.dropWhile_cons_of_neg (by simp [hd])]

theorem collapseWs_collapseWs (s : Str) :
    collapseWsList (collapseWsList s) = collapseWsList s := by
  match s with
  | [] => simp [collapseWsList_nil]
  | c :: cs =>
    by_cases h : isJsWs c = true
    · rw [collapseWsList_cons c cs, if_pos h]
      rw [collapseWsList_cons, if_pos (by decide)]
      have hhead : ∀ d, (cs.dropWhile isJsWs).head? = some d →
          isJsWs d = false := by
        intro d hd
        have := List.head?_dropWhile_not isJsWs cs
        rw [hd] at this
        simpa using this
      rw [dropWhile_collapseWs_of_head _ hhead]
      rw [collapseWs_collapseWs (cs.dropWhile isJsWs)]
    · rw [collapseWsList_cons c cs, if_neg h,
        collapseWsList_cons c (collapseWsList cs), if_neg h,
        collapseWs_collapseWs cs]
termination_by s.length
decreasing_by
  · exact Nat.lt_succ_of_le (List.dropWhile_sublist isJsWs).length_le
  · exact Nat.lt_succ_self cs.length

theorem dropWhile_isJsWs_eq_self (l : Str)
    (h : ∀ d, l.head? = some d → isJsWs d = false) :
    l.dropWhile isJsWs = l := by
  match l with
  | [] => rfl
  | d :: ds =>
    rw [List.dropWhile_cons_of_neg (by simp [h d rfl])]

theorem collapseWs_run (w rest : Str) (hw : w ≠ [])
    (hws : ∀ c ∈ w, isJsWs c = true)
    (hrest : ∀ d, rest.head? = some d → isJsWs d = false) :
    collapseWsList (w ++ rest) = ' ' :: collapseWsList rest := by
  match w with
  | c :: w' =>
    rw [List.cons_append, collapseWsList_cons, if_pos (hws c (by simp))]
    rw [List.dropWhile_append_of_pos (fun a ha => hws a (by simp [ha])),
      dropWhile_isJsWs_eq_self rest hrest]

/-! ## Lemmas on the word-level highlighter -/

theorem spansText_single (t : Str) : spansText [.unchanged t] = t := by
  simp [spansText, WordSpan.text]

theorem processLine_empty_first (wd : DiffFn) (l2 : Str) (f1 f2 : Bool) :
    processLineWithWordDiff wd [] l2 f1 f2 = [.unchanged l2] := by
  rw [processLineWithWordDiff, if_pos rfl]

theorem processLine_empty_second (wd : DiffFn) (l1 : Str) (f1 f2 : Bool) :
    processLineWithWordDiff wd l1 [] f1 f2 = [.unchanged l1] := by
  by_cases h : l1 = []
  · subst h; rw [processLineWithWordDiff, if_pos rfl]
  · rw [processLineWithWordDiff, if_neg h, if_pos rfl]

theorem spanOfPart_left_eq (e : EditOp) :
    spanOfPart true false e =
      if e.removed = true then some (.removedWord e.value)
      else if e.added = true then none
      else some (.unchanged e.value) := by
  cases ha : e.added <;> cases hr : e.removed <;>
    simp [spanOfPart, ha, hr]

theorem spanOfPart_right_eq (e : EditOp) :
    spanOfPart false true e =
      if e.added = true then some (.addedWord e.value)
      else if e.removed = true then none
      else some (.unchanged e.value) := by
  cases ha : e.added <;> cases hr : e.removed <;>
    simp [spanOfPart, ha, hr]

theorem filterMap_spanOfPart_left (d : List EditOp)
    (hne : ∀ e ∈ d, ¬(e.added = true ∧ e.removed = true)) :
    (d.filterMap (spanOfPart true false)).map WordSpan.text =
      (d.filter fun e => !e.added).map EditOp.value := by
  induction d with
  | nil => rfl
  | cons e rest ih =>
    have he := hne e (by simp)
    have hrest : ∀ x ∈ rest, ¬(x.added = true ∧ x.removed = true) :=
      fun x hx => hne x (by simp [hx])
    rw [List.filterMap_cons, List.filter_cons]
    cases ha : e.added <;> cases hr : e.removed
    · simp [spanOfPart, ha, hr, WordSpan.text, ih hrest]
    · simp [spanOfPart, ha, hr, WordSpan.text, ih hrest]
    · simp [spanOfPart, ha, hr, ih hrest]
    · exact absurd ⟨ha, hr⟩ he

theorem filterMap_spanOfPart_right (d : List EditOp)
    (hne : ∀ e ∈ d, ¬(e.added = true ∧ e.removed = true)) :
    (d.filterMap (spanOfPart false true)).map WordSpan.text =
      (d.filter fun e => !e.removed).map EditOp.value := by
  induction d with
  | nil => rfl
  | cons e rest ih =>
    have he := hne e (by simp)
    have hrest : ∀ x ∈ rest, ¬(x.added = true ∧ x.removed = true) :=
      fun x hx => hne x (by simp [hx])
    rw [List.filterMap_cons, List.filter_cons]
    cases ha : e.added <;> cases hr : e.removed
    · simp [spanOfPart, ha, hr, WordSpan.text, ih hrest]
    · simp [spanOfPart, ha, hr, ih hrest]
    · simp [spanOfPart, ha, hr, WordSpan.text, ih hrest]
    · exact absurd ⟨ha, hr⟩ he

theorem processLine_text_left (wd : DiffFn) (l1 l2 : Str) (h1 : l1 ≠ [])
    (h2 : l2 ≠ []) (hc : DiffContract (wd l1 l2) l1 l2) :
    spansText (processLineWithWordDiff wd l1 l2 true false) = l1 := by
  rw [processLineWithWordDiff, if_neg h1, if_neg h2, spansText,
    filterMap_spanOfPart_left _ hc.1, hc.2.1]

theorem processLine_text_right (wd : DiffFn) (l1 l2 : Str) (h1 : l1 ≠ [])
    (h2 : l2 ≠ []) (hc : DiffContract (wd l1 l2) l1 l2) :
    spansText (processLineWithWordDiff wd l1 l2 false true) = l2 := by
  rw [processLineWithWordDiff, if_neg h1, if_neg h2, spansText,
    filterMap_spanOfPart_right _ hc.1, hc.2.2]

/-! ## Claim C7 — normalization order and whitespace collapsing -/

/-- C7: for every string and every option setting, normalization first
(when `ignoreWhitespace` is set) replaces each maximal run of whitespace
characters — including newlines, witness the `isJsWs '\n'` conjunct — by a
single ASCII space, and second (when `ignoreCase` is set) lower-cases the
result; the two options act independently, whitespace first, case second.
The last two conjuncts characterize maximal-run replacement: a non-
whitespace head passes through, and a nonempty whitespace run followed by
a non-whitespace (or empty) remainder becomes one space. -/
theorem normalize_whitespace_then_case :
    (∀ (opts : Options) (s : Str),
      normalize opts s =
        (if opts.ignoreCase then
          toLowerCase (if opts.ignoreWhitespace then collapseWsList s else s)
        else if opts.ignoreWhitespace then collapseWsList s else s)) ∧
    isJsWs '\n' = true ∧
    collapseWsList [] = [] ∧
    (∀ (c : Char) (cs : Str), isJsWs c = false →
      collapseWsList (c :: cs) = c :: collapseWsList cs) ∧
    (∀ w rest : Str, w ≠ [] → (∀ c ∈ w, isJsWs c = true) →
      (∀ d, rest.head? = some d → isJsWs d = false) →
      collapseWsList (w ++ rest) = ' ' :: collapseWsList rest) := by
  refine ⟨?_, by decide, collapseWsList_nil, ?_, collapseWs_run⟩
  · rintro ⟨iw, ic⟩ s
    cases iw <;> cases ic <;> simp [normalize]
  · intro c cs h
    rw [collapseWsList_cons, if_neg (by simp [h])]

/-- Witness for C7 at concrete inputs: the run `" \t\n"` before `"a"`
collapses to a single space, and `normalize` with both options set equals
the collapse-then-lowercase pipeline on `"A \n B"`. -/
theorem normalize_whitespace_then_case_witness :
    collapseWsList ([' ', '\t', '\n'] ++ ['a']) =
      ' ' :: collapseWsList ['a'] ∧
    normalize ⟨true, true⟩ ['A', ' ', '\n', 'B'] =
      toLowerCase (collapseWsList ['A', ' ', '\n', 'B']) :=
  ⟨normalize_whitespace_then_case.2.2.2.2 [' ', '\t', '\n'] ['a']
      (by decide) (by decide) (by decide),
    normalize_whitespace_then_case.1 ⟨true, true⟩ ['A', ' ', '\n', 'B']⟩

/-! ## Claim C9 — idempotence of normalization -/

/-- C9: normalization is idempotent: for every string and every option
setting, `normalize opts (normalize opts s) = normalize opts s`. -/
theorem normalize_idempotent (opts : Options) (s : Str) :
    normalize opts (normalize opts s) = normalize opts s := by
  obtain ⟨iw, ic⟩ := opts
  cases iw <;> cases ic <;> simp only [normalize] <;> simp
  · exact toLowerCase_toLowerCase s
  · exact collapseWs_collapseWs s
  · rw [collapseWs_toLowerCase, collapseWs_collapseWs,
      toLowerCase_toLowerCase]

/-! ## Claim C5 — degenerate word diff on an empty side -/

/-- C5: whenever one of the two lines handed to the word-level highlighter
is empty, no word diff is computed (the result does not depend on the
word-diff primitive, nor on the view flags) and the produced span sequence
is a single `Unchanged` span carrying the other line in full — in
particular, with `oldLine` empty the right-side spans are
`[Unchanged newLine]`, and with `newLine` empty the left-side spans are
`[Unchanged oldLine]`. -/
theorem processLine_empty_side_degenerate
    (wd wd' : DiffFn) (oldLine newLine : Str) (f1 f2 f1' f2' : Bool) :
    processLineWithWordDiff wd [] newLine f1 f2 = [.unchanged newLine] ∧
    processLineWithWordDiff wd oldLine [] f1 f2 = [.unchanged oldLine] ∧
    processLineWithWordDiff wd [] newLine f1 f2 =
      processLineWithWordDiff wd' [] newLine f1' f2' ∧
    processLineWithWordDiff wd oldLine [] f1 f2 =
      processLineWithWordDiff wd' oldLine [] f1' f2' := by
  refine ⟨processLine_empty_first wd newLine f1 f2,
    processLine_empty_second wd oldLine f1 f2, ?_, ?_⟩
  · rw [processLine_empty_first, processLine_empty_first]
  · rw [processLine_empty_second, processLine_empty_second]

/-! ## Claim C6 — word-level keep/drop and reconstruction -/

/-- C6: on two nonempty lines, the left (old-side) rendering keeps
unchanged tokens and removed tokens (as `RemovedWord`) and drops added
tokens; the right (new-side) rendering keeps unchanged and added tokens
(as `AddedWord`) and drops removed tokens; and under the word-diff
primitive's contract the left span texts concatenate to `oldLine` and the
right span texts to `newLine`. -/
theorem processLine_keep_drop_reconstruct
    (wd : DiffFn) (oldLine newLine : Str) (h1 : oldLine ≠ [])
    (h2 : newLine ≠ [])
    (hc : DiffContract (wd oldLine newLine) oldLine newLine) :
    processLineWithWordDiff wd oldLine newLine true false =
      (wd oldLine newLine).filterMap (fun e =>
        if e.removed = true then some (.removedWord e.value)
        else if e.added = true then none
        else some (.unchanged e.value)) ∧
    processLineWithWordDiff wd oldLine newLine false true =
      (wd oldLine newLine).filterMap (fun e =>
        if e.added = true then some (.addedWord e.value)
        else if e.removed = true then none
        else some (.unchanged e.value)) ∧
    spansText (processLineWithWordDiff wd oldLine newLine true false) =
      oldLine ∧
    spansText (processLineWithWordDiff wd oldLine newLine false true) =
      newLine := by
  refine ⟨?_, ?_, processLine_text_left wd _ _ h1 h2 hc,
    processLine_text_right wd _ _ h1 h2 hc⟩
  · rw [processLineWithWordDiff, if_neg h1, if_neg h2]
    exact List.filterMap_congr fun e _ => spanOfPart_left_eq e
  · rw [processLineWithWordDiff, if_neg h1, if_neg h2]
    exact List.filterMap_congr fun e _ => spanOfPart_right_eq e

/-- Witness for C6: a concrete word-diff primitive on `"x"` / `"y"`
satisfying the contract, whose left spans reconstruct `"x"` and right
spans reconstruct `"y"`. -/
theorem processLine_keep_drop_reconstruct_witness :
    spansText (processLineWithWordDiff
        (fun a b => [{value := a, added := false, removed := true},
                     {value := b, added := true, removed := false}])
        ['x'] ['y'] true false) = ['x'] ∧
    spansText (processLineWithWordDiff
        (fun a b => [{value := a, added := false, removed := true},
                     {value := b, added := true, removed := false}])
        ['x'] ['y'] false true) = ['y'] :=
  ⟨(processLine_keep_drop_reconstruct _ ['x'] ['y'] (by decide) (by decide)
      (by decide)).2.2.1,
   (processLine_keep_drop_reconstruct _ ['x'] ['y'] (by decide) (by decide)
      (by decide)).2.2.2⟩

/-! ## Lemmas on modification detection -/

theorem findModifiedBlocksFrom_none (ops : List EditOp) (i : Nat)
    (h1 : ops[i]? = none) : findModifiedBlocksFrom ops i = [] := by
  rw [findModifiedBlocksFrom.eq_def ops i]
  split
  · rfl
  · rename_i cur h3
    rw [h3] at h1; exact Option.noConfusion h1

theorem findModifiedBlocksFrom_pair (ops : List EditOp) (i : Nat)
    (cur nxt : EditOp) (h1 : ops[i]? = some cur)
    (h2 : ops[i + 1]? = some nxt) :
    findModifiedBlocksFrom ops i =
      if cur.removed && nxt.added then
        .mod cur.value nxt.value :: findModifiedBlocksFrom ops (i + 2)
      else .plain cur :: findModifiedBlocksFrom ops (i + 1) := by
  rw [findModifiedBlocksFrom.eq_def ops i]
  simp only [h2]
  split
  · rename_i h3
    rw [h3] at h1; exact Option.noConfusion h1
  · rename_i cur2 h3
    rw [h3] at h1
    injection h1 with h1
    subst h1
    rfl

theorem findModifiedBlocksFrom_last (ops : List EditOp) (i : Nat)
    (cur : EditOp) (h1 : ops[i]? = some cur) (h2 : ops[i + 1]? = none) :
    findModifiedBlocksFrom ops i =
      .plain cur :: findModifiedBlocksFrom ops (i + 1) := by
  rw [findModifiedBlocksFrom.eq_def ops i]
  simp only [h2]
  split
  · rename_i h3
    rw [h3] at h1; exact Option.noConfusion h1
  · rename_i cur2 h3
    rw [h3] at h1
    injection h1 with h1
    subst h1
    rfl

theorem findModifiedBlocksFrom_shift_aux (x : EditOp) :
    ∀ (n : Nat) (ops : List EditOp) (i : Nat), ops.length - i ≤ n →
      findModifiedBlocksFrom (x :: ops) (i + 1) =
        findModifiedBlocksFrom ops i := by
  intro n
  induction n with
  | zero =>
    intro ops i h
    have h1 : ops[i]? = none := List.getElem?_eq_none (by omega)
    have h2 : (x :: ops)[i + 1]? = none := by
      rw [List.getElem?_cons_succ]; exact h1
    rw [findModifiedBlocksFrom_none ops i h1,
      findModifiedBlocksFrom_none (x :: ops) (i + 1) h2]
  | succ n ih =>
    intro ops i h
    cases hoi : ops[i]? with
    | none =>
      have h2 : (x :: ops)[i + 1]? = none := by
        rw [List.getElem?_cons_succ]; exact hoi
      rw [findModifiedBlocksFrom_none ops i hoi,
        findModifiedBlocksFrom_none (x :: ops) (i + 1) h2]
    | some cur =>
      have hi : i < ops.length := by
        by_contra hlt
        rw [List.getElem?_eq_none (Nat.le_of_not_lt hlt)] at hoi
        exact Option.noConfusion hoi
      have hup : (x :: ops)[i + 1]? = some cur := by
        rw [List.getElem?_cons_succ]; exact hoi
      cases hoi1 : ops[i + 1]? with
      | none =>
        have hup1 : (x :: ops)[i + 1 + 1]? = none := by
          rw [List.getElem?_cons_succ]; exact hoi1
        rw [findModifiedBlocksFrom_last ops i cur hoi hoi1,
          findModifiedBlocksFrom_last (x :: ops) (i + 1) cur hup hup1,
          ih ops (i + 1) (by omega)]
      | some nxt =>
        have hup1 : (x :: ops)[i + 1 + 1]? = some nxt := by
          rw [List.getElem?_cons_succ]; exact hoi1
        rw [findModifiedBlocksFrom_pair ops i cur nxt hoi hoi1,
          findModifiedBlocksFrom_pair (x :: ops) (i + 1) cur nxt hup hup1]
        by_cases hcond : (cur.removed && nxt.added) = true
        · rw [if_pos hcond, if_pos hcond]
          rw [show i + 1 + 2 = (i + 2) + 1 from by omega,
            ih ops (i + 2) (by omega)]
        · rw [if_neg hcond, if_neg hcond, ih ops (i + 1) (by omega)]

theorem findModifiedBlocksFrom_shift (x : EditOp) (ops : List EditOp)
    (i : Nat) :
    findModifiedBlocksFrom (x :: ops) (i + 1) = findModifiedBlocksFrom ops i :=
  findModifiedBlocksFrom_shift_aux x (ops.length - i) ops i le_rfl

theorem findModifiedBlocks_nil : findModifiedBlocks [] = [] := by
  rw [findModifiedBlocks]
  exact findModifiedBlocksFrom_none [] 0 (by simp)

theorem findModifiedBlocks_merge (x y : EditOp) (rest : List EditOp)
    (hr : x.removed = true) (ha : y.added = true) :
    findModifiedBlocks (x :: y :: rest) =
      .mod x.value y.value :: findModifiedBlocks rest := by
  rw [findModifiedBlocks, findModifiedBlocks,
    findModifiedBlocksFrom_pair (x :: y :: rest) 0 x y (by simp) (by simp),
    if_pos (by simp [hr, ha])]
  rw [show (0 : Nat) + 2 = 1 + 1 from rfl, findModifiedBlocksFrom_shift,
    show (1 : Nat) = 0 + 1 from rfl, findModifiedBlocksFrom_shift]

theorem findModifiedBlocks_not_removed (x : EditOp) (rest : List EditOp)
    (hr : x.removed = false) :
    findModifiedBlocks (x :: rest) = .plain x :: findModifiedBlocks rest := by
  match rest with
  | [] =>
    rw [findModifiedBlocks, findModifiedBlocksFrom_last [x] 0 x (by simp) (by simp),
      findModifiedBlocksFrom_none [x] 1 (by simp), findModifiedBlocks_nil]
  | y :: rest' =>
    rw [findModifiedBlocks, findModifiedBlocks,
      findModifiedBlocksFrom_pair (x :: y :: rest') 0 x y (by simp) (by simp),
      if_neg (by simp [hr]), show (0 : Nat) + 1 = 0 + 1 from rfl,
      findModifiedBlocksFrom_shift]

theorem findModifiedBlocks_next_not_added (x y : EditOp)
    (rest : List EditOp) (ha : y.added = false) :
    findModifiedBlocks (x :: y :: rest) =
      .plain x :: findModifiedBlocks (y :: rest) := by
  rw [findModifiedBlocks, findModifiedBlocks,
    findModifiedBlocksFrom_pair (x :: y :: rest) 0 x y (by simp) (by simp),
    if_neg (by simp [ha]), show (0 : Nat) + 1 = 0 + 1 from rfl,
    findModifiedBlocksFrom_shift]

theorem findModifiedBlocks_single (x : EditOp) :
    findModifiedBlocks [x] = [.plain x] := by
  rw [findModifiedBlocks, findModifiedBlocksFrom_last [x] 0 x (by simp) (by simp),
    findModifiedBlocksFrom_none [x] 1 (by simp)]

/-! ## Claim C3 — greedy single-pass modification detection -/

/-- C3: modification detection is a single greedy left-to-right pass: a
`Removed` op immediately followed by an `Added` op becomes one
`ModifiedBlock` (cursor advances by 2); in every other situation the
current op is emitted unchanged (cursor advances by 1); and a removed
block separated from a matching added block by an unchanged block is
emitted as independent ops, never merged. -/
theorem findModifiedBlocks_greedy_pass :
    (∀ (x y : EditOp) (rest : List EditOp),
      x.removed = true → y.added = true →
      findModifiedBlocks (x :: y :: rest) =
        .mod x.value y.value :: findModifiedBlocks rest) ∧
    (∀ (x : EditOp) (rest : List EditOp), x.removed = false →
      findModifiedBlocks (x :: rest) = .plain x :: findModifiedBlocks rest) ∧
    (∀ (x y : EditOp) (rest : List EditOp), y.added = false →
      findModifiedBlocks (x :: y :: rest) =
        .plain x :: findModifiedBlocks (y :: rest)) ∧
    (∀ x : EditOp, findModifiedBlocks [x] = [.plain x]) ∧
    findModifiedBlocks [] = [] ∧
    (∀ r u a : EditOp, r.removed = true → u.added = false →
      u.removed = false → a.added = true →
      findModifiedBlocks [r, u, a] = [.plain r, .plain u, .plain a]) := by
  refine ⟨findModifiedBlocks_merge, findModifiedBlocks_not_removed,
    findModifiedBlocks_next_not_added, findModifiedBlocks_single,
    findModifiedBlocks_nil, ?_⟩
  intro r u a hr hua hur haa
  rw [findModifiedBlocks_next_not_added r u [a] hua,
    findModifiedBlocks_not_removed u [a] hur,
    findModifiedBlocks_single a]

/-- Witness for C3: an adjacent removed/added pair merges into a
`ModifiedBlock`, and the same pair separated by an unchanged op stays
three plain ops. -/
theorem findModifiedBlocks_greedy_pass_witness :
    findModifiedBlocks
        [{value := ['x'], removed := true}, {value := ['y'], added := true}] =
      [.mod ['x'] ['y']] ∧
    findModifiedBlocks
        [{value := ['x'], removed := true}, {value := ['u']},
         {value := ['y'], added := true}] =
      [.plain {value := ['x'], removed := true}, .plain {value := ['u']},
       .plain {value := ['y'], added := true}] := by
  constructor
  · rw [findModifiedBlocks_greedy_pass.1 {value := ['x'], removed := true}
      {value := ['y'], added := true} [] (by decide) (by decide)]
    rw [findModifiedBlocks_greedy_pass.2.2.2.2.1]
  · exact findModifiedBlocks_greedy_pass.2.2.2.2.2
      {value := ['x'], removed := true} {value := ['u']}
      {value := ['y'], added := true} (by decide) (by decide) (by decide)
      (by decide)

/-! ## Characterization of the per-op row emission -/

theorem getD_tail_lines (ns : List Str) (i : Nat) :
    ns.getD (i + 1) [] = ns.tail.getD i [] := by
  cases ns <;> rfl

theorem headD_eq_getD_lines (ns : List Str) : ns.headD [] = ns.getD 0 [] := by
  cases ns <;> rfl

theorem max_length_cons_lines (o : Str) (os ns : List Str) :
    max (o :: os).length ns.length = max os.length ns.tail.length + 1 := by
  cases ns with
  | nil => simp
  | cons x t => simp [List.length_cons, Nat.succ_max_succ]


theorem getElem?_map_range {α : Type} (m i : Nat) (f : Nat → α) :
    ((List.range m).map f)[i]? = if i < m then some (f i) else none := by
  by_cases h : i < m
  · rw [List.getElem?_map, List.getElem?_range h, if_pos h]
    rfl
  · rw [if_neg h, List.getElem?_eq_none]
    simp
    omega

theorem emitModRows_spec_aux (wd : DiffFn) :
    ∀ (n : Nat) (old new : List Str) (n1 n2 : Nat),
      old.length + new.length ≤ n →
      emitModRows wd old new n1 n2 =
        ((List.range (max old.length new.length)).map (fun i =>
            AlignedRow.content (n1 + i) .modified
              (processLineWithWordDiff wd (old.getD i []) (new.getD i [])
                true false)),
         (List.range (max old.length new.length)).map (fun i =>
            AlignedRow.content (n2 + i) .modified
              (processLineWithWordDiff wd (old.getD i []) (new.getD i [])
                false true))) := by
  intro n
  induction n with
  | zero =>
    intro old new n1 n2 h
    have ho : old = [] := by
      cases old with
      | nil => rfl
      | cons _ _ => simp [List.length_cons] at h
    have hn : new = [] := by
      cases new with
      | nil => rfl
      | cons _ _ => simp [List.length_cons] at h
    subst ho; subst hn
    rw [emitModRows.eq_1]
    simp
  | succ n ih =>
    intro old new n1 n2 h
    match old, new with
    | [], [] =>
      rw [emitModRows.eq_1]
      simp
    | o :: os, ns =>
      rw [emitModRows.eq_2]
      have hlen : os.length + ns.tail.length ≤ n := by
        have := List.length_tail ns
        simp only [List.length_cons] at h
        omega
      rw [ih os ns.tail (n1 + 1) (n2 + 1) hlen, Prod.mk.injEq]
      constructor
      · apply List.ext_getElem?
        intro i
        rw [getElem?_map_range]
        match i with
        | 0 =>
          rw [List.getElem?_cons_zero, if_pos (by rw [max_length_cons_lines]; omega)]
          simp only [List.getD_cons_zero, headD_eq_getD_lines, Nat.add_zero]
        | j + 1 =>
          rw [List.getElem?_cons_succ, getElem?_map_range]
          rw [max_length_cons_lines]
          by_cases hj : j < max os.length ns.tail.length
          · rw [if_pos hj, if_pos (by omega)]
            rw [List.getD_cons_succ, getD_tail_lines]
            rw [show n1 + 1 + j = n1 + (j + 1) from by omega]
          · rw [if_neg hj, if_neg (by omega)]
      · apply List.ext_getElem?
        intro i
        rw [getElem?_map_range]
        match i with
        | 0 =>
          rw [List.getElem?_cons_zero, if_pos (by rw [max_length_cons_lines]; omega)]
          simp only [List.getD_cons_zero, headD_eq_getD_lines, Nat.add_zero]
        | j + 1 =>
          rw [List.getElem?_cons_succ, getElem?_map_range]
          rw [max_length_cons_lines]
          by_cases hj : j < max os.length ns.tail.length
          · rw [if_pos hj, if_pos (by omega)]
            rw [List.getD_cons_succ, getD_tail_lines]
            rw [show n2 + 1 + j = n2 + (j + 1) from by omega]
          · rw [if_neg hj, if_neg (by omega)]
    | [], nl :: ns =>
      rw [emitModRows.eq_3]
      have hlen : List.length ([] : List Str) + ns.length ≤ n := by
        simp only [List.length_cons, List.length_nil] at h ⊢
        omega
      rw [ih [] ns (n1 + 1) (n2 + 1) hlen, Prod.mk.injEq]
      have hmax : max (List.length ([] : List Str)) ((nl :: ns).length) =
          max (List.length ([] : List Str)) ns.length + 1 := by
        simp [List.length_cons]
      constructor
      · apply List.ext_getElem?
        intro i
        rw [getElem?_map_range]
        match i with
        | 0 =>
          rw [List.getElem?_cons_zero, if_pos (by rw [hmax]; omega)]
          simp only [List.getD_cons_zero, List.getD_nil, Nat.add_zero]
        | j + 1 =>
          rw [List.getElem?_cons_succ, getElem?_map_range, hmax]
          by_cases hj : j < max (List.length ([] : List Str)) ns.length
          · rw [if_pos hj, if_pos (by omega)]
            rw [List.getD_cons_succ, List.getD_nil, List.getD_nil]
            rw [show n1 + 1 + j = n1 + (j + 1) from by omega]
          · rw [if_neg hj, if_neg (by omega)]
      · apply List.ext_getElem?
        intro i
        rw [getElem?_map_range]
        match i with
        | 0 =>
          rw [List.getElem?_cons_zero, if_pos (by rw [hmax]; omega)]
          simp only [List.getD_cons_zero, List.getD_nil, Nat.add_zero]
        | j + 1 =>
          rw [List.getElem?_cons_succ, getElem?_map_range, hmax]
          by_cases hj : j < max (List.length ([] : List Str)) ns.length
          · rw [if_pos hj, if_pos (by omega)]
            rw [List.getD_cons_succ, List.getD_nil, List.getD_nil]
            rw [show n2 + 1 + j = n2 + (j + 1) from by omega]
          · rw [if_neg hj, if_neg (by omega)]


theorem emitModRows_spec (wd : DiffFn) (old new : List Str) (n1 n2 : Nat) :
    emitModRows wd old new n1 n2 =
      ((List.range (max old.length new.length)).map (fun i =>
          AlignedRow.content (n1 + i) .modified
            (processLineWithWordDiff wd (old.getD i []) (new.getD i [])
              true false)),
       (List.range (max old.length new.length)).map (fun i =>
          AlignedRow.content (n2 + i) .modified
            (processLineWithWordDiff wd (old.getD i []) (new.getD i [])
              false true))) :=
  emitModRows_spec_aux wd (old.length + new.length) old new n1 n2 le_rfl

theorem emitAddedRows_spec (wd : DiffFn) :
    ∀ (lines : List Str) (n2 : Nat),
      emitAddedRows wd lines n2 =
        (List.replicate lines.length AlignedRow.placeholder,
         (List.range lines.length).map (fun i =>
            AlignedRow.content (n2 + i) .added
              [.unchanged (lines.getD i [])])) := by
  intro lines
  induction lines with
  | nil => intro n2; simp [emitAddedRows]
  | cons l ls ih =>
    intro n2
    rw [emitAddedRows, ih (n2 + 1), processLine_empty_first, Prod.mk.injEq]
    constructor
    · simp [List.replicate_succ]
    · apply List.ext_getElem?
      intro i
      rw [getElem?_map_range]
      match i with
      | 0 =>
        rw [List.getElem?_cons_zero, if_pos (by simp)]
        simp
      | j + 1 =>
        rw [List.getElem?_cons_succ, getElem?_map_range]
        simp only [List.length_cons]
        by_cases hj : j < ls.length
        · rw [if_pos hj, if_pos (by omega), List.getD_cons_succ,
            show n2 + 1 + j = n2 + (j + 1) from by omega]
        · rw [if_neg hj, if_neg (by omega)]

theorem emitRemovedRows_spec (wd : DiffFn) :
    ∀ (lines : List Str) (n1 : Nat),
      emitRemovedRows wd lines n1 =
        ((List.range lines.length).map (fun i =>
            AlignedRow.content (n1 + i) .removed
              [.unchanged (lines.getD i [])]),
         List.replicate lines.length AlignedRow.placeholder) := by
  intro lines
  induction lines with
  | nil => intro n1; simp [emitRemovedRows]
  | cons l ls ih =>
    intro n1
    rw [emitRemovedRows, ih (n1 + 1), processLine_empty_second, Prod.mk.injEq]
    constructor
    · apply List.ext_getElem?
      intro i
      rw [getElem?_map_range]
      match i with
      | 0 =>
        rw [List.getElem?_cons_zero, if_pos (by simp)]
        simp
      | j + 1 =>
        rw [List.getElem?_cons_succ, getElem?_map_range]
        simp only [List.length_cons]
        by_cases hj : j < ls.length
        · rw [if_pos hj, if_pos (by omega), List.getD_cons_succ,
            show n1 + 1 + j = n1 + (j + 1) from by omega]
        · rw [if_neg hj, if_neg (by omega)]
    · simp [List.replicate_succ]

theorem emitUnchangedRows_spec :
    ∀ (lines : List Str) (n1 n2 : Nat),
      emitUnchangedRows lines n1 n2 =
        ((List.range lines.length).map (fun i =>
            AlignedRow.content (n1 + i) .unchanged
              [.unchanged (lines.getD i [])]),
         (List.range lines.length).map (fun i =>
            AlignedRow.content (n2 + i) .unchanged
              [.unchanged (lines.getD i [])])) := by
  intro lines
  induction lines with
  | nil => intro n1 n2; simp [emitUnchangedRows]
  | cons l ls ih =>
    intro n1 n2
    rw [emitUnchangedRows, ih (n1 + 1) (n2 + 1), Prod.mk.injEq]
    constructor
    · apply List.ext_getElem?
      intro i
      rw [getElem?_map_range]
      match i with
      | 0 =>
        rw [List.getElem?_cons_zero, if_pos (by simp)]
        simp
      | j + 1 =>
        rw [List.getElem?_cons_succ, getElem?_map_range]
        simp only [List.length_cons]
        by_cases hj : j < ls.length
        · rw [if_pos hj, if_pos (by omega), List.getD_cons_succ,
            show n1 + 1 + j = n1 + (j + 1) from by omega]
        · rw [if_neg hj, if_neg (by omega)]
    · apply List.ext_getElem?
      intro i
      rw [getElem?_map_range]
      match i with
      | 0 =>
        rw [List.getElem?_cons_zero, if_pos (by simp)]
        simp
      | j + 1 =>
        rw [List.getElem?_cons_succ, getElem?_map_range]
        simp only [List.length_cons]
        by_cases hj : j < ls.length
        · rw [if_pos hj, if_pos (by omega), List.getD_cons_succ,
            show n2 + 1 + j = n2 + (j + 1) from by omega]
        · rw [if_neg hj, if_neg (by omega)]

theorem emitModRows_left_length (wd : DiffFn) (old new : List Str)
    (n1 n2 : Nat) :
    (emitModRows wd old new n1 n2).1.length = max old.length new.length := by
  rw [emitModRows_spec]
  simp

theorem emitModRows_right_length (wd : DiffFn) (old new : List Str)
    (n1 n2 : Nat) :
    (emitModRows wd old new n1 n2).2.length = max old.length new.length := by
  rw [emitModRows_spec]
  simp

theorem emitModRows_left_getElem? (wd : DiffFn) (old new : List Str)
    (n1 n2 i : Nat) :
    (emitModRows wd old new n1 n2).1[i]? =
      if i < max old.length new.length then
        some (.content (n1 + i) .modified
          (processLineWithWordDiff wd (old.getD i []) (new.getD i [])
            true false))
      else none := by
  rw [emitModRows_spec]
  exact getElem?_map_range _ _ _

theorem emitModRows_right_getElem? (wd : DiffFn) (old new : List Str)
    (n1 n2 i : Nat) :
    (emitModRows wd old new n1 n2).2[i]? =
      if i < max old.length new.length then
        some (.content (n2 + i) .modified
          (processLineWithWordDiff wd (old.getD i []) (new.getD i [])
            false true))
      else none := by
  rw [emitModRows_spec]
  exact getElem?_map_range _ _ _

theorem emitModRows_left_content (wd : DiffFn) (old new : List Str)
    (n1 n2 : Nat) :
    ∀ r ∈ (emitModRows wd old new n1 n2).1, r.isPlaceholder = false := by
  rw [emitModRows_spec]
  intro r hr
  simp only [List.mem_map, List.mem_range] at hr
  obtain ⟨i, _, rfl⟩ := hr
  rfl

theorem emitModRows_right_content (wd : DiffFn) (old new : List Str)
    (n1 n2 : Nat) :
    ∀ r ∈ (emitModRows wd old new n1 n2).2, r.isPlaceholder = false := by
  rw [emitModRows_spec]
  intro r hr
  simp only [List.mem_map, List.mem_range] at hr
  obtain ⟨i, _, rfl⟩ := hr
  rfl

/-! ## Claim C4 — row pairs inside a modified block -/

/-- C4: the rows a `ModifiedBlock` emits: after splitting `oldValue` and
`newValue` into lines (dropping one trailing empty line each), lines are
paired by index (`getD` supplies the empty string for a missing side), the
number of emitted row pairs is `max (|oldLines|, |newLines|)`, and every
pair consists of exactly one content row per column, classified
`modified`, numbered by the respective incrementing line counter — never a
placeholder. -/
theorem modBlock_line_pairs (wd : DiffFn) (ov nv : Str) (n1 n2 : Nat) :
    (emitModRows wd (splitToLines ov) (splitToLines nv) n1 n2).1.length =
      max (splitToLines ov).length (splitToLines nv).length ∧
    (emitModRows wd (splitToLines ov) (splitToLines nv) n1 n2).2.length =
      max (splitToLines ov).length (splitToLines nv).length ∧
    ∀ i, i < max (splitToLines ov).length (splitToLines nv).length →
      (emitModRows wd (splitToLines ov) (splitToLines nv) n1 n2).1[i]? =
        some (.content (n1 + i) .modified
          (processLineWithWordDiff wd ((splitToLines ov).getD i [])
            ((splitToLines nv).getD i []) true false)) ∧
      (emitModRows wd (splitToLines ov) (splitToLines nv) n1 n2).2[i]? =
        some (.content (n2 + i) .modified
          (processLineWithWordDiff wd ((splitToLines ov).getD i [])
            ((splitToLines nv).getD i []) false true)) := by
  refine ⟨emitModRows_left_length wd _ _ n1 n2,
    emitModRows_right_length wd _ _ n1 n2, ?_⟩
  intro i hi
  rw [emitModRows_left_getElem?, emitModRows_right_getElem?,
    if_pos hi, if_pos hi]
  exact ⟨rfl, rfl⟩

/-- Witness for C4 on a concrete block: `"a"` against `"x\ny"` yields two
row pairs; the pair at index 0 is a `modified` content row on each side. -/
theorem modBlock_line_pairs_witness :
    (emitModRows (fun _ _ => []) (splitToLines ['a'])
        (splitToLines ['x', '\n', 'y']) 1 1).1.length =
      max (splitToLines ['a']).length (splitToLines ['x', '\n', 'y']).length ∧
    (emitModRows (fun _ _ => []) (splitToLines ['a'])
        (splitToLines ['x', '\n', 'y']) 1 1).1[0]? =
      some (.content (1 + 0) .modified
        (processLineWithWordDiff (fun _ _ => [])
          ((splitToLines ['a']).getD 0 [])
          ((splitToLines ['x', '\n', 'y']).getD 0 []) true false)) :=
  ⟨(modBlock_line_pairs (fun _ _ => []) ['a'] ['x', '\n', 'y'] 1 1).1,
   ((modBlock_line_pairs (fun _ _ => []) ['a'] ['x', '\n', 'y'] 1 1).2.2 0
      (by decide)).1⟩

/-! ## Claim C10 — empty-side lines inside an unbalanced modified block -/

/-- C10: inside a `ModifiedBlock`, at every index where one side's split
line is the empty string (in particular every index past the shorter
side's end), both columns' content rows render the other side's full line
text — the shorter side's extra rows are copies of the longer side's
lines, not empty rows. -/
theorem modBlock_empty_side_copies (wd : DiffFn) (ov nv : Str)
    (n1 n2 i : Nat)
    (hi : i < max (splitToLines ov).length (splitToLines nv).length) :
    ((splitToLines ov).getD i [] = [] →
      ((emitModRows wd (splitToLines ov) (splitToLines nv) n1 n2).1[i]?.map
          AlignedRow.text) = some ((splitToLines nv).getD i []) ∧
      ((emitModRows wd (splitToLines ov) (splitToLines nv) n1 n2).2[i]?.map
          AlignedRow.text) = some ((splitToLines nv).getD i [])) ∧
    ((splitToLines nv).getD i [] = [] →
      ((emitModRows wd (splitToLines ov) (splitToLines nv) n1 n2).1[i]?.map
          AlignedRow.text) = some ((splitToLines ov).getD i []) ∧
      ((emitModRows wd (splitToLines ov) (splitToLines nv) n1 n2).2[i]?.map
          AlignedRow.text) = some ((splitToLines ov).getD i [])) := by
  rw [emitModRows_left_getElem?, emitModRows_right_getElem?,
    if_pos hi, if_pos hi]
  constructor
  · intro ho
    rw [ho, processLine_empty_first, processLine_empty_first]
    constructor <;>
      simp [AlignedRow.text, spansText_single]
  · intro hn
    rw [hn, processLine_empty_second, processLine_empty_second]
    constructor <;>
      simp [AlignedRow.text, spansText_single]

/-- Witness for C10: in the block `"x"` / `"x\ny"`, the old side has no
line at index 1, and both columns' rows at index 1 carry the new side's
line `"y"`. -/
theorem modBlock_empty_side_copies_witness :
    ((emitModRows (fun _ _ => []) (splitToLines ['x'])
        (splitToLines ['x', '\n', 'y']) 1 1).1[1]?.map AlignedRow.text) =
      some ((splitToLines ['x', '\n', 'y']).getD 1 []) :=
  ((modBlock_empty_side_copies (fun _ _ => []) ['x'] ['x', '\n', 'y'] 1 1 1
      (by decide)).1 (by decide)).1

/-! ## Column alignment invariants -/

theorem no_double_placeholder_append (L1 R1 L2 R2 : List AlignedRow)
    (hlen : L1.length = R1.length)
    (h1 : ∀ i : Nat,
      ¬(L1[i]? = some .placeholder ∧ R1[i]? = some .placeholder))
    (h2 : ∀ i : Nat,
      ¬(L2[i]? = some .placeholder ∧ R2[i]? = some .placeholder)) :
    ∀ i : Nat, ¬((L1 ++ L2)[i]? = some .placeholder ∧
           (R1 ++ R2)[i]? = some .placeholder) := by
  intro i
  by_cases h : i < L1.length
  · rw [List.getElem?_append_left h, List.getElem?_append_left (hlen ▸ h)]
    exact h1 i
  · rw [List.getElem?_append_right (Nat.le_of_not_lt h),
      List.getElem?_append_right (by omega), hlen]
    exact h2 _

theorem emitModRows_no_double (wd : DiffFn) (old new : List Str)
    (n1 n2 : Nat) :
    ∀ i : Nat,
      ¬((emitModRows wd old new n1 n2).1[i]? = some .placeholder ∧
        (emitModRows wd old new n1 n2).2[i]? = some .placeholder) := by
  intro i ⟨hL, _⟩
  rw [emitModRows_left_getElem?] at hL
  split at hL
  · exact AlignedRow.noConfusion (Option.some.inj hL)
  · exact Option.noConfusion hL

theorem emitAddedRows_no_double (wd : DiffFn) (lines : List Str)
    (n2 : Nat) :
    ∀ i : Nat,
      ¬((emitAddedRows wd lines n2).1[i]? = some .placeholder ∧
        (emitAddedRows wd lines n2).2[i]? = some .placeholder) := by
  intro i ⟨hL, hR⟩
  rw [emitAddedRows_spec] at hL hR
  simp only [List.getElem?_replicate] at hL
  rw [getElem?_map_range] at hR
  by_cases h : i < lines.length
  · rw [if_pos h] at hR
    exact AlignedRow.noConfusion (Option.some.inj hR)
  · rw [if_neg h] at hL
    exact Option.noConfusion hL

theorem emitRemovedRows_no_double (wd : DiffFn) (lines : List Str)
    (n1 : Nat) :
    ∀ i : Nat,
      ¬((emitRemovedRows wd lines n1).1[i]? = some .placeholder ∧
        (emitRemovedRows wd lines n1).2[i]? = some .placeholder) := by
  intro i ⟨hL, _⟩
  rw [emitRemovedRows_spec] at hL
  rw [getElem?_map_range] at hL
  split at hL
  · exact AlignedRow.noConfusion (Option.some.inj hL)
  · exact Option.noConfusion hL

theorem emitUnchangedRows_no_double (lines : List Str) (n1 n2 : Nat) :
    ∀ i : Nat,
      ¬((emitUnchangedRows lines n1 n2).1[i]? = some .placeholder ∧
        (emitUnchangedRows lines n1 n2).2[i]? = some .placeholder) := by
  intro i ⟨hL, _⟩
  rw [emitUnchangedRows_spec] at hL
  rw [getElem?_map_range] at hL
  split at hL
  · exact AlignedRow.noConfusion (Option.some.inj hL)
  · exact Option.noConfusion hL

theorem emitOps_length_eq (wd : DiffFn) :
    ∀ (ps : List ProcessedOp) (n1 n2 : Nat),
      (emitOps wd ps n1 n2).1.length = (emitOps wd ps n1 n2).2.length := by
  intro ps
  induction ps with
  | nil => intro n1 n2; rfl
  | cons p ps ih =>
    intro n1 n2
    match p with
    | .mod ov nv =>
      rw [emitOps]
      simp only [List.length_append, emitModRows_left_length,
        emitModRows_right_length, ih]
    | .plain e =>
      rw [emitOps]
      cases ha : e.added <;> cases hr : e.removed <;>
        simp only [ha, hr, Bool.false_eq_true, if_false, if_true,
          List.length_append, emitAddedRows_spec, emitRemovedRows_spec,
          emitUnchangedRows_spec, List.length_replicate, List.length_map,
          List.length_range, ih]

theorem emitOps_no_double (wd : DiffFn) :
    ∀ (ps : List ProcessedOp) (n1 n2 : Nat) (i : Nat),
      ¬((emitOps wd ps n1 n2).1[i]? = some .placeholder ∧
        (emitOps wd ps n1 n2).2[i]? = some .placeholder) := by
  intro ps
  induction ps with
  | nil =>
    intro n1 n2 i ⟨hL, _⟩
    exact Option.noConfusion hL
  | cons p ps ih =>
    intro n1 n2
    match p with
    | .mod ov nv =>
      rw [emitOps]
      exact no_double_placeholder_append _ _ _ _
        (by rw [emitModRows_left_length, emitModRows_right_length])
        (emitModRows_no_double wd _ _ n1 n2) (ih _ _)
    | .plain e =>
      rw [emitOps]
      cases ha : e.added <;> cases hr : e.removed <;>
        simp only [ha, hr, Bool.false_eq_true, if_false, if_true]
      · exact no_double_placeholder_append _ _ _ _
          (by rw [emitUnchangedRows_spec]; simp)
          (emitUnchangedRows_no_double _ n1 n2) (ih _ _)
      · exact no_double_placeholder_append _ _ _ _
          (by rw [emitRemovedRows_spec]; simp)
          (emitRemovedRows_no_double wd _ n1) (ih _ _)
      · exact no_double_placeholder_append _ _ _ _
          (by rw [emitAddedRows_spec]; simp)
          (emitAddedRows_no_double wd _ n2) (ih _ _)
      · exact no_double_placeholder_append _ _ _ _
          (by rw [emitAddedRows_spec]; simp)
          (emitAddedRows_no_double wd _ n2) (ih _ _)

/-! ## Claim C2 — alignment invariants of the two columns -/

/-- C2: for every pair of input texts, every option setting, and any
outputs of the external diff primitives, the left and right `AlignedRow`
sequences have equal length; at every index at most one side is a
placeholder; and inside a modified block both columns' rows are all
content rows, never placeholders. -/
theorem aligned_rows_invariants :
    (∀ (ld wd : DiffFn) (opts : Options) (d1 d2 : Str),
      (compareDocs ld wd opts d1 d2).1.length =
        (compareDocs ld wd opts d1 d2).2.length) ∧
    (∀ (ld wd : DiffFn) (opts : Options) (d1 d2 : Str) (i : Nat),
      ¬((compareDocs ld wd opts d1 d2).1[i]? = some .placeholder ∧
        (compareDocs ld wd opts d1 d2).2[i]? = some .placeholder)) ∧
    (∀ (wd : DiffFn) (ov nv : Str) (n1 n2 : Nat),
      (∀ r ∈ (emitModRows wd (splitToLines ov) (splitToLines nv) n1 n2).1,
        r.isPlaceholder = false) ∧
      (∀ r ∈ (emitModRows wd (splitToLines ov) (splitToLines nv) n1 n2).2,
        r.isPlaceholder = false)) := by
  refine ⟨?_, ?_, ?_⟩
  · intro ld wd opts d1 d2
    exact emitOps_length_eq wd _ 1 1
  · intro ld wd opts d1 d2 i
    exact emitOps_no_double wd _ 1 1 i
  · intro wd ov nv n1 n2
    exact ⟨emitModRows_left_content wd _ _ n1 n2,
      emitModRows_right_content wd _ _ n1 n2⟩

/-- Witness for C2 at concrete primitives and inputs. -/
theorem aligned_rows_invariants_witness :
    (compareDocs (fun _ _ => [{value := ['a']}]) (fun _ _ => [])
        ⟨false, false⟩ ['a'] ['a']).1.length =
      (compareDocs (fun _ _ => [{value := ['a']}]) (fun _ _ => [])
        ⟨false, false⟩ ['a'] ['a']).2.length ∧
    ¬((compareDocs (fun _ _ => [{value := ['a']}]) (fun _ _ => [])
        ⟨false, false⟩ ['a'] ['a']).1[0]? = some .placeholder ∧
      (compareDocs (fun _ _ => [{value := ['a']}]) (fun _ _ => [])
        ⟨false, false⟩ ['a'] ['a']).2[0]? = some .placeholder) :=
  ⟨aligned_rows_invariants.1 (fun _ _ => [{value := ['a']}])
      (fun _ _ => []) ⟨false, false⟩ ['a'] ['a'],
   aligned_rows_invariants.2.1 (fun _ _ => [{value := ['a']}])
      (fun _ _ => []) ⟨false, false⟩ ['a'] ['a'] 0⟩

/-! ## Content texts of the emitted rows -/

theorem contentTexts_append (a b : List AlignedRow) :
    contentTexts (a ++ b) = contentTexts a ++ contentTexts b := by
  induction a with
  | nil => rfl
  | cons r rest ih =>
    cases r with
    | placeholder => simp [contentTexts, ih]
    | content n c s => simp [contentTexts, ih]

theorem contentTexts_map_content (xs : List Nat) (num : Nat → Nat)
    (cl : Nat → Classification) (sp : Nat → List WordSpan) :
    contentTexts (xs.map (fun i =>
        AlignedRow.content (num i) (cl i) (sp i))) =
      xs.map (fun i => spansText (sp i)) := by
  induction xs with
  | nil => rfl
  | cons x rest ih => simp [contentTexts, ih]

theorem contentTexts_replicate_placeholder (n : Nat) :
    contentTexts (List.replicate n AlignedRow.placeholder) = [] := by
  induction n with
  | zero => rfl
  | succ n ih => simp [List.replicate_succ, contentTexts, ih]

theorem map_getD_range (l : List Str) :
    (List.range l.length).map (fun i => l.getD i []) = l := by
  apply List.ext_getElem?
  intro i
  rw [getElem?_map_range]
  by_cases h : i < l.length
  · rw [if_pos h, List.getElem?_eq_getElem h, List.getD_eq_getElem l [] h]
  · rw [if_neg h, List.getElem?_eq_none (Nat.le_of_not_lt h)]

theorem emitModRows_left_texts (wd : DiffFn) (old new : List Str)
    (n1 n2 : Nat) (hwd : WordContract wd) (hb : BalancedLines old new) :
    contentTexts (emitModRows wd old new n1 n2).1 = old := by
  rw [emitModRows_spec]
  have hm : max old.length new.length = old.length := by
    rw [hb.1, Nat.max_self]
  rw [contentTexts_map_content (List.range (max old.length new.length))
    (fun i => n1 + i) (fun _ => .modified)
    (fun i => processLineWithWordDiff wd (old.getD i []) (new.getD i [])
      true false), hm]
  apply List.ext_getElem?
  intro i
  rw [getElem?_map_range]
  by_cases h : i < old.length
  · rw [if_pos h, List.getElem?_eq_getElem h]
    congr 1
    by_cases ho : old.getD i [] = []
    · have hn : new.getD i [] = [] := (hb.2 i h).mp ho
      rw [ho, hn, processLine_empty_first, spansText_single,
        ← List.getD_eq_getElem old [] h, ho]
    · by_cases hn : new.getD i [] = []
      · rw [hn, processLine_empty_second, spansText_single,
          List.getD_eq_getElem old [] h]
      · rw [processLine_text_left wd _ _ ho hn (hwd _ _ ho hn),
          List.getD_eq_getElem old [] h]
  · rw [if_neg h, List.getElem?_eq_none (Nat.le_of_not_lt h)]

theorem emitModRows_right_texts (wd : DiffFn) (old new : List Str)
    (n1 n2 : Nat) (hwd : WordContract wd) (hb : BalancedLines old new) :
    contentTexts (emitModRows wd old new n1 n2).2 = new := by
  rw [emitModRows_spec]
  have hm : max old.length new.length = new.length := by
    rw [hb.1, Nat.max_self]
  rw [contentTexts_map_content (List.range (max old.length new.length))
    (fun i => n2 + i) (fun _ => .modified)
    (fun i => processLineWithWordDiff wd (old.getD i []) (new.getD i [])
      false true), hm]
  apply List.ext_getElem?
  intro i
  rw [getElem?_map_range]
  by_cases h : i < new.length
  · rw [if_pos h, List.getElem?_eq_getElem h]
    congr 1
    have h' : i < old.length := by rw [hb.1]; exact h
    by_cases ho : old.getD i [] = []
    · have hn : new.getD i [] = [] := (hb.2 i h').mp ho
      rw [ho, processLine_empty_first, spansText_single,
        List.getD_eq_getElem new [] h]
    · have hn : new.getD i [] ≠ [] := fun hn =>
        ho ((hb.2 i h').mpr hn)
      rw [processLine_text_right wd _ _ ho hn (hwd _ _ ho hn),
        List.getD_eq_getElem new [] h]
  · rw [if_neg h, List.getElem?_eq_none (Nat.le_of_not_lt h)]

theorem emitAddedRows_texts (wd : DiffFn) (lines : List Str) (n2 : Nat) :
    contentTexts (emitAddedRows wd lines n2).1 = [] ∧
    contentTexts (emitAddedRows wd lines n2).2 = lines := by
  rw [emitAddedRows_spec]
  refine ⟨contentTexts_replicate_placeholder _, ?_⟩
  rw [contentTexts_map_content (List.range lines.length)
    (fun i => n2 + i) (fun _ => .added)
    (fun i => [.unchanged (lines.getD i [])])]
  have : ∀ i, spansText [WordSpan.unchanged (lines.getD i [])] =
      lines.getD i [] := fun i => spansText_single _
  calc (List.range lines.length).map
        (fun i => spansText [WordSpan.unchanged (lines.getD i [])])
      = (List.range lines.length).map (fun i => lines.getD i []) :=
        List.map_congr_left fun i _ => this i
    _ = lines := map_getD_range lines

theorem emitRemovedRows_texts (wd : DiffFn) (lines : List Str) (n1 : Nat) :
    contentTexts (emitRemovedRows wd lines n1).1 = lines ∧
    contentTexts (emitRemovedRows wd lines n1).2 = [] := by
  rw [emitRemovedRows_spec]
  refine ⟨?_, contentTexts_replicate_placeholder _⟩
  rw [contentTexts_map_content (List.range lines.length)
    (fun i => n1 + i) (fun _ => .removed)
    (fun i => [.unchanged (lines.getD i [])])]
  calc (List.range lines.length).map
        (fun i => spansText [WordSpan.unchanged (lines.getD i [])])
      = (List.range lines.length).map (fun i => lines.getD i []) :=
        List.map_congr_left fun i _ => spansText_single _
    _ = lines := map_getD_range lines

theorem emitUnchangedRows_texts (lines : List Str) (n1 n2 : Nat) :
    contentTexts (emitUnchangedRows lines n1 n2).1 = lines ∧
    contentTexts (emitUnchangedRows lines n1 n2).2 = lines := by
  rw [emitUnchangedRows_spec]
  constructor
  · rw [contentTexts_map_content (List.range lines.length)
      (fun i => n1 + i) (fun _ => .unchanged)
      (fun i => [.unchanged (lines.getD i [])])]
    calc (List.range lines.length).map
          (fun i => spansText [WordSpan.unchanged (lines.getD i [])])
        = (List.range lines.length).map (fun i => lines.getD i []) :=
          List.map_congr_left fun i _ => spansText_single _
      _ = lines := map_getD_range lines
  · rw [contentTexts_map_content (List.range lines.length)
      (fun i => n2 + i) (fun _ => .unchanged)
      (fun i => [.unchanged (lines.getD i [])])]
    calc (List.range lines.length).map
          (fun i => spansText [WordSpan.unchanged (lines.getD i [])])
        = (List.range lines.length).map (fun i => lines.getD i []) :=
          List.map_congr_left fun i _ => spansText_single _
      _ = lines := map_getD_range lines

theorem emitOps_left_texts (wd : DiffFn) (hwd : WordContract wd) :
    ∀ (ps : List ProcessedOp) (n1 n2 : Nat),
      (∀ ov nv, ProcessedOp.mod ov nv ∈ ps →
        BalancedLines (splitToLines ov) (splitToLines nv)) →
      contentTexts (emitOps wd ps n1 n2).1 =
        (ps.map leftLinesOf).flatten := by
  intro ps
  induction ps with
  | nil => intro n1 n2 _; rfl
  | cons p ps ih =>
    intro n1 n2 hb
    have hbrest : ∀ ov nv, ProcessedOp.mod ov nv ∈ ps →
        BalancedLines (splitToLines ov) (splitToLines nv) :=
      fun ov nv hm => hb ov nv (by simp [hm])
    match p with
    | .mod ov nv =>
      rw [emitOps, contentTexts_append,
        emitModRows_left_texts wd _ _ n1 n2 hwd (hb ov nv (by simp)),
        ih _ _ hbrest]
      simp [leftLinesOf]
    | .plain e =>
      rw [emitOps]
      cases ha : e.added <;> cases hr : e.removed <;>
        simp only [ha, hr, Bool.false_eq_true, if_false, if_true] <;>
        rw [contentTexts_append, ih _ _ hbrest] <;>
        simp [leftLinesOf, ha, hr, (emitUnchangedRows_texts _ n1 n2).1,
          (emitAddedRows_texts wd _ n2).1, (emitRemovedRows_texts wd _ n1).1]

theorem emitOps_right_texts (wd : DiffFn) (hwd : WordContract wd) :
    ∀ (ps : List ProcessedOp) (n1 n2 : Nat),
      (∀ ov nv, ProcessedOp.mod ov nv ∈ ps →
        BalancedLines (splitToLines ov) (splitToLines nv)) →
      contentTexts (emitOps wd ps n1 n2).2 =
        (ps.map rightLinesOf).flatten := by
  intro ps
  induction ps with
  | nil => intro n1 n2 _; rfl
  | cons p ps ih =>
    intro n1 n2 hb
    have hbrest : ∀ ov nv, ProcessedOp.mod ov nv ∈ ps →
        BalancedLines (splitToLines ov) (splitToLines nv) :=
      fun ov nv hm => hb ov nv (by simp [hm])
    match p with
    | .mod ov nv =>
      rw [emitOps, contentTexts_append,
        emitModRows_right_texts wd _ _ n1 n2 hwd (hb ov nv (by simp)),
        ih _ _ hbrest]
      simp [rightLinesOf]
    | .plain e =>
      rw [emitOps]
      cases ha : e.added <;> cases hr : e.removed <;>
        simp only [ha, hr, Bool.false_eq_true, if_false, if_true] <;>
        rw [contentTexts_append, ih _ _ hbrest] <;>
        simp [rightLinesOf, ha, hr, (emitUnchangedRows_texts _ n1 n2).2,
          (emitAddedRows_texts wd _ n2).2, (emitRemovedRows_texts wd _ n1).2]

theorem adjacentBalanced_tail (x : EditOp) (rest : List EditOp)
    (h : AdjacentBalanced (x :: rest)) : AdjacentBalanced rest := by
  match rest with
  | [] => trivial
  | y :: rest' => exact h.2

theorem fmb_mod_balanced :
    ∀ (n : Nat) (ops : List EditOp), ops.length ≤ n →
      AdjacentBalanced ops →
      ∀ ov nv, ProcessedOp.mod ov nv ∈ findModifiedBlocks ops →
        BalancedLines (splitToLines ov) (splitToLines nv) := by
  intro n
  induction n with
  | zero =>
    intro ops h _ ov nv hm
    have : ops = [] := List.eq_nil_of_length_eq_zero (by omega)
    subst this
    rw [findModifiedBlocks_nil] at hm
    exact absurd hm (List.not_mem_nil _)
  | succ n ih =>
    intro ops h hbal ov nv hm
    match ops with
    | [] =>
      rw [findModifiedBlocks_nil] at hm
      exact absurd hm (List.not_mem_nil _)
    | [x] =>
      rw [findModifiedBlocks_single] at hm
      simp at hm
    | x :: y :: rest =>
      cases hxr : x.removed
      · rw [findModifiedBlocks_not_removed x (y :: rest) hxr] at hm
        rcases List.mem_cons.mp hm with h1 | h1
        · exact ProcessedOp.noConfusion h1
        · exact ih (y :: rest) (by simp at h ⊢; omega)
            (adjacentBalanced_tail x _ hbal) ov nv h1
      · cases hya : y.added
        · rw [findModifiedBlocks_next_not_added x y rest hya] at hm
          rcases List.mem_cons.mp hm with h1 | h1
          · exact ProcessedOp.noConfusion h1
          · exact ih (y :: rest) (by simp at h ⊢; omega)
              (adjacentBalanced_tail x _ hbal) ov nv h1
        · rw [findModifiedBlocks_merge x y rest hxr hya] at hm
          rcases List.mem_cons.mp hm with h1 | h1
          · injection h1 with h1 h2
            subst h1; subst h2
            exact hbal.1 hxr hya
          · exact ih rest (by simp at h ⊢; omega)
              (adjacentBalanced_tail y _ (adjacentBalanced_tail x _ hbal))
              ov nv h1

theorem fmb_left_flatten :
    ∀ (n : Nat) (ops : List EditOp), ops.length ≤ n →
      (∀ e ∈ ops, ¬(e.added = true ∧ e.removed = true)) →
      ((findModifiedBlocks ops).map leftLinesOf).flatten =
        ((ops.filter fun e => !e.added).map
          (fun e => splitToLines e.value)).flatten := by
  intro n
  induction n with
  | zero =>
    intro ops h _
    have : ops = [] := List.eq_nil_of_length_eq_zero (by omega)
    subst this
    rw [findModifiedBlocks_nil]
    rfl
  | succ n ih =>
    intro ops h hne
    match ops with
    | [] => rw [findModifiedBlocks_nil]; rfl
    | [x] =>
      rw [findModifiedBlocks_single]
      cases ha : x.added <;>
        simp [leftLinesOf, List.filter_cons, ha]
    | x :: y :: rest =>
      have hnerest : ∀ e ∈ y :: rest, ¬(e.added = true ∧ e.removed = true) :=
        fun e he => hne e (by simp [he])
      cases hxr : x.removed
      · rw [findModifiedBlocks_not_removed x (y :: rest) hxr]
        rw [List.map_cons, List.flatten_cons,
          ih (y :: rest) (by simp at h ⊢; omega) hnerest]
        cases ha : x.added <;>
          simp [leftLinesOf, List.filter_cons, ha]
      · cases hya : y.added
        · rw [findModifiedBlocks_next_not_added x y rest hya]
          rw [List.map_cons, List.flatten_cons,
            ih (y :: rest) (by simp at h ⊢; omega) hnerest]
          have hxa : x.added = false := by
            rcases Bool.eq_false_or_eq_true x.added with h1 | h1
            · exact absurd ⟨h1, hxr⟩ (hne x (by simp))
            · exact h1
          simp [leftLinesOf, List.filter_cons, hxa]
        · rw [findModifiedBlocks_merge x y rest hxr hya]
          rw [List.map_cons, List.flatten_cons,
            ih rest (by simp at h ⊢; omega)
              (fun e he => hne e (by simp [he]))]
          have hxa : x.added = false := by
            rcases Bool.eq_false_or_eq_true x.added with h1 | h1
            · exact absurd ⟨h1, hxr⟩ (hne x (by simp))
            · exact h1
          simp [leftLinesOf, List.filter_cons, hxa, hya]

theorem fmb_right_flatten :
    ∀ (n : Nat) (ops : List EditOp), ops.length ≤ n →
      (∀ e ∈ ops, ¬(e.added = true ∧ e.removed = true)) →
      ((findModifiedBlocks ops).map rightLinesOf).flatten =
        ((ops.filter fun e => !e.removed).map
          (fun e => splitToLines e.value)).flatten := by
  intro n
  induction n with
  | zero =>
    intro ops h _
    have : ops = [] := List.eq_nil_of_length_eq_zero (by omega)
    subst this
    rw [findModifiedBlocks_nil]
    rfl
  | succ n ih =>
    intro ops h hne
    match ops with
    | [] => rw [findModifiedBlocks_nil]; rfl
    | [x] =>
      rw [findModifiedBlocks_single]
      cases ha : x.added <;> cases hr : x.removed <;>
        first
        | exact absurd ⟨by assumption, by assumption⟩ (hne x (by simp))
        | simp [rightLinesOf, List.filter_cons, ha, hr]
    | x :: y :: rest =>
      have hnerest : ∀ e ∈ y :: rest, ¬(e.added = true ∧ e.removed = true) :=
        fun e he => hne e (by simp [he])
      cases hxr : x.removed
      · rw [findModifiedBlocks_not_removed x (y :: rest) hxr]
        rw [List.map_cons, List.flatten_cons,
          ih (y :: rest) (by simp at h ⊢; omega) hnerest]
        cases ha : x.added <;>
          simp [rightLinesOf, List.filter_cons, ha, hxr]
      · cases hya : y.added
        · rw [findModifiedBlocks_next_not_added x y rest hya]
          rw [List.map_cons, List.flatten_cons,
            ih (y :: rest) (by simp at h ⊢; omega) hnerest]
          have hxa : x.added = false := by
            rcases Bool.eq_false_or_eq_true x.added with h1 | h1
            · exact absurd ⟨h1, hxr⟩ (hne x (by simp))
            · exact h1
          simp [rightLinesOf, List.filter_cons, hxa, hxr]
        · rw [findModifiedBlocks_merge x y rest hxr hya]
          rw [List.map_cons, List.flatten_cons,
            ih rest (by simp at h ⊢; omega)
              (fun e he => hne e (by simp [he]))]
          have hyr : y.removed = false := by
            rcases Bool.eq_false_or_eq_true y.removed with h1 | h1
            · exact absurd ⟨hya, h1⟩ (hne y (by simp))
            · exact h1
          simp [rightLinesOf, List.filter_cons, hxr, hyr, hya]

theorem nlSeparated_filter (p : EditOp → Bool) :
    ∀ ops : List EditOp, NlSeparated (ops.map EditOp.value) →
      NlSeparated ((ops.filter p).map EditOp.value) := by
  intro ops
  induction ops with
  | nil => intro h; exact h
  | cons x rest ih =>
    intro h
    rw [List.map_cons, NlSeparated] at h
    rw [List.filter_cons]
    cases hp : p x
    · simp only [Bool.false_eq_true, if_false]
      exact ih h.2
    · simp only [if_true]
      rw [List.map_cons, NlSeparated]
      refine ⟨?_, ih h.2⟩
      by_cases hrest : (rest.filter p).map EditOp.value = []
      · exact Or.inl hrest
      · rcases h.1 with h1 | h1
        · exfalso
          apply hrest
          have : rest = [] := by
            cases rest with
            | nil => rfl
            | cons a b => exact absurd h1 (by simp)
          rw [this]
          rfl
        · exact Or.inr h1

theorem flatten_splitToLines_eq_nil (rest : List Str)
    (h : (rest.map splitToLines).flatten = []) : rest.flatten = [] := by
  rw [List.flatten_eq_nil_iff] at h ⊢
  intro l hl
  have := h (splitToLines l) (List.mem_map_of_mem splitToLines hl)
  exact (splitToLines_eq_nil_iff l).mp this

theorem joinNL_flatten_splitToLines :
    ∀ vs : List Str, NlSeparated vs →
      joinNL ((vs.map splitToLines).flatten) = dropTrailingNl vs.flatten := by
  intro vs
  induction vs with
  | nil => intro _; rfl
  | cons v rest ih =>
    intro h
    rw [NlSeparated] at h
    rw [List.map_cons, List.flatten_cons, List.flatten_cons]
    by_cases hv : v = []
    · subst hv
      rw [splitToLines_nil, List.nil_append, List.nil_append]
      exact ih h.2
    · by_cases hB : (rest.map splitToLines).flatten = []
      · have hrf : rest.flatten = [] := flatten_splitToLines_eq_nil rest hB
        rw [hB, hrf, List.append_nil, List.append_nil]
        exact joinNL_splitToLines v
      · have hrest : rest ≠ [] := by
          intro hr
          subst hr
          exact hB rfl
        have hnlv : v.getLast? = some '\n' := by
          rcases h.1 with h1 | h1
          · exact absurd h1 hrest
          · rcases h1 with h1 | h1
            · exact absurd h1 hv
            · exact h1
        obtain ⟨u, rfl⟩ : ∃ u, v = u ++ ['\n'] := by
          refine ⟨v.dropLast, ?_⟩
          have := List.dropLast_append_getLast? '\n' hnlv
          simp [this]
        have hrf : rest.flatten ≠ [] := by
          intro hr
          exact hB (by
            rw [List.flatten_eq_nil_iff] at hr ⊢
            intro l hl
            simp only [List.mem_map] at hl
            obtain ⟨r, hr1, rfl⟩ := hl
            rw [(splitToLines_eq_nil_iff r).mpr (hr r hr1)])
        rw [splitToLines_append_newline,
          joinNL_append _ _ (splitLines_ne_nil u) hB,
          joinNL_splitLines, ih h.2]
        rw [dropTrailingNl_append (u ++ ['\n']) rest.flatten hrf]
        simp

/-! ## Claim C1 — reconstruction of the two documents from the columns -/

/-- C1 counterexample: already for the identical one-line documents
`"a\n"` (with both options off) and the edit script `[Unchanged "a\n"]` —
which satisfies the line-diff contract for this input pair — the
concatenation of the left column's content-row texts joined by newline is
`"a"`, not the normalized document `"a\n"`: the engine drops the trailing
newline (split on `"\n"` plus the trailing-empty `pop`, lines 309–313). -/
theorem reconstruction_counterexample :
    DiffContract [{value := ['a', '\n']}]
      (normalize ⟨false, false⟩ ['a', '\n'])
      (normalize ⟨false, false⟩ ['a', '\n']) ∧
    joinNL (contentTexts
      (compareDocs (fun _ _ => [{value := ['a', '\n']}]) (fun _ _ => [])
        ⟨false, false⟩ ['a', '\n'] ['a', '\n']).1) ≠
      normalize ⟨false, false⟩ ['a', '\n'] := by
  constructor
  · decide
  · have h1 : compareDocs (fun _ _ => [{value := ['a', '\n']}])
        (fun _ _ => []) ⟨false, false⟩ ['a', '\n'] ['a', '\n'] =
        emitOps (fun _ _ => [])
          (findModifiedBlocks [{value := ['a', '\n']}]) 1 1 := rfl
    rw [h1, findModifiedBlocks_single]
    decide

/-- C1 (amended): for every pair of input texts and every option setting,
provided the line-diff output satisfies its contract, every script value
except possibly the last is empty or newline-terminated, every adjacent
removed/added pair splits into balanced line lists (equal counts, empty
lines at matching indices), and the word-diff primitive satisfies its
contract on nonempty lines, the concatenation of the non-placeholder left
content-row texts joined by newline equals the normalized document 1 with
a single trailing newline removed if present; symmetrically for the right
column and document 2. -/
theorem aligned_reconstruction (ld wd : DiffFn) (opts : Options)
    (d1 d2 : Str) (hwd : WordContract wd)
    (hc : DiffContract (ld (normalize opts d1) (normalize opts d2))
      (normalize opts d1) (normalize opts d2))
    (hnl : NlSeparated ((ld (normalize opts d1) (normalize opts d2)).map
      EditOp.value))
    (hbal : AdjacentBalanced (ld (normalize opts d1) (normalize opts d2))) :
    joinNL (contentTexts (compareDocs ld wd opts d1 d2).1) =
      dropTrailingNl (normalize opts d1) ∧
    joinNL (contentTexts (compareDocs ld wd opts d1 d2).2) =
      dropTrailingNl (normalize opts d2) := by
  have h1 : compareDocs ld wd opts d1 d2 =
      emitOps wd (findModifiedBlocks
        (ld (normalize opts d1) (normalize opts d2))) 1 1 := rfl
  have hbalanced := fun ov nv hm =>
    fmb_mod_balanced (ld (normalize opts d1) (normalize opts d2)).length
      (ld (normalize opts d1) (normalize opts d2)) le_rfl hbal ov nv hm
  constructor
  · rw [h1, emitOps_left_texts wd hwd _ 1 1 hbalanced,
      fmb_left_flatten (ld (normalize opts d1) (normalize opts d2)).length
        _ le_rfl hc.1]
    have h2 : (((ld (normalize opts d1) (normalize opts d2)).filter
          fun e => !e.added).map fun e => splitToLines e.value) =
        ((((ld (normalize opts d1) (normalize opts d2)).filter
          fun e => !e.added).map EditOp.value).map splitToLines) := by
      rw [List.map_map]
      rfl
    rw [h2, joinNL_flatten_splitToLines _
      (nlSeparated_filter _ _ hnl), hc.2.1]
  · rw [h1, emitOps_right_texts wd hwd _ 1 1 hbalanced,
      fmb_right_flatten (ld (normalize opts d1) (normalize opts d2)).length
        _ le_rfl hc.1]
    have h2 : (((ld (normalize opts d1) (normalize opts d2)).filter
          fun e => !e.removed).map fun e => splitToLines e.value) =
        ((((ld (normalize opts d1) (normalize opts d2)).filter
          fun e => !e.removed).map EditOp.value).map splitToLines) := by
      rw [List.map_map]
      rfl
    rw [h2, joinNL_flatten_splitToLines _
      (nlSeparated_filter _ _ hnl), hc.2.2]

/-- Witness for the amended C1 at the documents `"a\nb"` with a concrete
contract-satisfying word-diff primitive and the unchanged edit script. -/
theorem aligned_reconstruction_witness :
    joinNL (contentTexts
      (compareDocs (fun _ _ => [{value := ['a', '\n', 'b']}])
        (fun a b => [{value := a, removed := true},
                     {value := b, added := true}])
        ⟨false, false⟩ ['a', '\n', 'b'] ['a', '\n', 'b']).1) =
      dropTrailingNl (normalize ⟨false, false⟩ ['a', '\n', 'b']) :=
  (aligned_reconstruction (fun _ _ => [{value := ['a', '\n', 'b']}])
    (fun a b => [{value := a, removed := true},
                 {value := b, added := true}])
    ⟨false, false⟩ ['a', '\n', 'b'] ['a', '\n', 'b']
    (fun a b _ _ => ⟨by simp, by simp, by simp⟩)
    (by decide)
    ⟨Or.inl rfl, trivial⟩
    trivial).1

/-! ## Claim C8 — pure additions and removals -/

/-- C8: a pure `Added` op emits one placeholder row per split line on the
left and one `added` content row per line on the right with the right
counter incrementing; symmetrically a pure `Removed` op emits `removed`
content rows on the left — each carrying a single whole-line span produced
by the degenerate word-diff path — and placeholders on the right.
Concretely, comparing `""` with `"a\nb"` (when the line diff returns the
single added op) yields exactly two placeholders on the left and the
content rows `a`, `b` numbered 1 and 2 on the right. -/
theorem pure_add_remove_rows :
    (∀ (wd : DiffFn) (lines : List Str) (n2 : Nat),
      emitAddedRows wd lines n2 =
        (List.replicate lines.length AlignedRow.placeholder,
         (List.range lines.length).map (fun i =>
            AlignedRow.content (n2 + i) .added
              [.unchanged (lines.getD i [])]))) ∧
    (∀ (wd : DiffFn) (lines : List Str) (n1 : Nat),
      emitRemovedRows wd lines n1 =
        ((List.range lines.length).map (fun i =>
            AlignedRow.content (n1 + i) .removed
              [.unchanged (lines.getD i [])]),
         List.replicate lines.length AlignedRow.placeholder)) ∧
    (∀ ld wd : DiffFn,
      ld (normalize ⟨false, false⟩ [])
          (normalize ⟨false, false⟩ ['a', '\n', 'b']) =
        [{value := ['a', '\n', 'b'], added := true}] →
      compareDocs ld wd ⟨false, false⟩ [] ['a', '\n', 'b'] =
        ([.placeholder, .placeholder],
         [.content 1 .added [.unchanged ['a']],
          .content 2 .added [.unchanged ['b']]])) := by
  refine ⟨emitAddedRows_spec, emitRemovedRows_spec, ?_⟩
  intro ld wd hld
  have h1 : compareDocs ld wd ⟨false, false⟩ [] ['a', '\n', 'b'] =
      emitOps wd (findModifiedBlocks
        (ld (normalize ⟨false, false⟩ [])
          (normalize ⟨false, false⟩ ['a', '\n', 'b']))) 1 1 := rfl
  rw [h1, hld, findModifiedBlocks_single]
  rfl

/-- Witness for C8: the concrete comparison of `""` against `"a\nb"`. -/
theorem pure_add_remove_rows_witness :
    compareDocs (fun _ _ => [{value := ['a', '\n', 'b'], added := true}])
        (fun _ _ => []) ⟨false, false⟩ [] ['a', '\n', 'b'] =
      ([.placeholder, .placeholder],
       [.content 1 .added [.unchanged ['a']],
        .content 2 .added [.unchanged ['b']]]) :=
  pure_add_remove_rows.2.2
    (fun _ _ => [{value := ['a', '\n', 'b'], added := true}])
    (fun _ _ => []) rfl

end Comperator
